import Mathlib

/-
Verification of the mailsense corpus-reduction pipeline.

The Python sources (gmail_history.py, findvoice.py, app.py) are shallowly
embedded below.  Text is modelled as `List Char` (python `str`), so that
python string concatenation, slicing and splitting become list operations
with a well-developed lemma library.  The tiktoken tokenizer and the OpenAI
completion service are external collaborators; they are modelled as
parameters (a `Tokenizer` structure and oracle functions), as the code only
interacts with them through opaque calls.
-/

namespace MailSense

/-- Text is modelled as a list of characters (a python `str`). -/
abbrev Text := List Char

/-- Whitespace as stripped by python `str.strip()` and matched by the regex
class `\s` (ASCII range). -/
def pySpace (c : Char) : Bool :=
  c = ' ' || c = '\t' || c = '\n' || c = '\r' || c = '\x0b' || c = '\x0c'

/-- Drop leading python whitespace (`str.lstrip`). -/
def ltrim (s : Text) : Text := s.dropWhile pySpace

/-- Drop trailing python whitespace (`str.rstrip`). -/
def rtrim (s : Text) : Text := (s.reverse.dropWhile pySpace).reverse

/-- Model of python `str.strip()`. -/
def pyStrip (s : Text) : Text := rtrim (ltrim s)

/-- Model of python `body.split('\n')`: split on every newline, keeping empty
pieces; the empty string splits to one empty piece. -/
def splitLinesAux : Text → Text → List Text
  | [], cur => [cur.reverse]
  | c :: rest, cur =>
    if c = '\n' then cur.reverse :: splitLinesAux rest []
    else splitLinesAux rest (c :: cur)

/-- Split a body into lines, python-style. -/
def splitLines (s : Text) : List Text := splitLinesAux s []

/-- Model of python `'\n'.join(lines)`. -/
def joinLines : List Text → Text
  | [] => []
  | [l] => l
  | l :: l2 :: ls => l ++ '\n' :: joinLines (l2 :: ls)

/-- Match `^-+Original Message-+` / `^-+Forwarded message-+` style banners
(gmail_history.py lines 51-52): a nonempty run of dashes, the literal, then at
least one further dash; `re.match` only anchors the start. -/
def matchDashBanner (lit : Text) (t : Text) : Bool :=
  let ds := t.takeWhile (fun c => c = '-')
  let rest := t.drop ds.length
  decide (1 ≤ ds.length) && lit.isPrefixOf rest &&
    (match rest.drop lit.length with
     | '-' :: _ => true
     | _ => false)

/-- Match `^On .+ wrote:$` (gmail_history.py line 44) on a stripped line: the
line starts with `On `, ends with ` wrote:`, and has at least one character in
between (`.` cannot match a newline, but split lines contain none). -/
def quoteOnWrote (t : Text) : Bool :=
  "On ".data.isPrefixOf t && " wrote:".data.isSuffixOf t && decide (11 ≤ t.length)

/-- Match of the combined `quoted_start_patterns` alternation
(gmail_history.py lines 43-54) against an already-stripped line.  Each
disjunct mirrors one regex alternative, in source order. -/
def matchQuoteStart (t : Text) : Bool :=
  quoteOnWrote t
  || (match t with
      | '>' :: _ :: _ => true
      | _ => false)
  || "From: ".data.isPrefixOf t
  || "Date: ".data.isPrefixOf t
  || "Subject: ".data.isPrefixOf t
  || "To: ".data.isPrefixOf t
  || "Sent from ".data.isPrefixOf t
  || matchDashBanner "Original Message".data t
  || matchDashBanner "Forwarded message".data t
  || (match t with
      | '_' :: _ => true
      | _ => false)

/-- Closing phrases of `signature_patterns` (gmail_history.py lines 61-66);
on a stripped line, `^Regards,\s*$` matches exactly the literal. -/
def sigClosers : List Text :=
  ["Regards,".data, "Best,".data, "Thanks,".data, "Thank you,".data,
   "Sincerely,".data, "Cheers,".data]

/-- Match of the combined `signature_patterns` alternation (gmail_history.py
lines 57-67) against an already-stripped line: `^--\s*$`, `^__+\s*$`,
`^-+\s*$`, or a closing phrase. -/
def matchSig (t : Text) : Bool :=
  decide (t = "--".data)
  || (decide (2 ≤ t.length) && t.all (fun c => c = '_'))
  || (decide (1 ≤ t.length) && t.all (fun c => c = '-'))
  || sigClosers.contains t

/-- Match `^On .+, .+ wrote:$` (gmail_history.py line 92): start `On `, end
` wrote:`, and a `, ` occurrence with at least one character on each side. -/
def matchOnCommaWrote (t : Text) : Bool :=
  "On ".data.isPrefixOf t && " wrote:".data.isSuffixOf t &&
  (List.range t.length).any (fun i =>
    decide (4 ≤ i) && decide (i + 10 ≤ t.length) &&
    (t.getD i ' ' == ',') && (t.getD (i + 1) ' ' == ' '))

/-- State of the line-scanning loop of `extract_your_content`:
the accumulated `your_content` (in reverse), and the two latched flags. -/
structure ScanState where
  kept : List Text
  inQuote : Bool
  reachedSignature : Bool

/-- The signature check of the loop body (gmail_history.py line 87-88): while
not in a quote and with content already kept, a signature marker latches
`reached_signature`. -/
def sigUpdate (st : ScanState) (t : Text) : ScanState :=
  if !st.inQuote && !st.kept.isEmpty && matchSig t then
    { st with reachedSignature := true }
  else st

/-- One iteration of the `for line in lines` loop of `extract_your_content`
(gmail_history.py lines 78-101), in source order: quote-start check (with
`continue`), signature check, the special `On ..., ... wrote:` check (with
`continue`), then the guarded append that also skips leading blank lines. -/
def scanStep (st : ScanState) (line : Text) : ScanState :=
  if matchQuoteStart (pyStrip line) then { st with inQuote := true }
  else if matchOnCommaWrote (pyStrip line) then
    { sigUpdate st (pyStrip line) with inQuote := true }
  else if !(sigUpdate st (pyStrip line)).inQuote &&
      !(sigUpdate st (pyStrip line)).reachedSignature then
    if (sigUpdate st (pyStrip line)).kept.isEmpty && (pyStrip line).isEmpty then
      sigUpdate st (pyStrip line)
    else
      { sigUpdate st (pyStrip line) with
          kept := line :: (sigUpdate st (pyStrip line)).kept }
  else sigUpdate st (pyStrip line)

/-- Initial scan state: no content kept, both flags false. -/
def initScan : ScanState := ⟨[], false, false⟩

/-- The list `your_content` produced by scanning all lines. -/
def scanAll (lines : List Text) : List Text :=
  (lines.foldl scanStep initScan).kept.reverse

/-- Literal of the `Sent from my iPhone` trailing-signature regex. -/
def iPhoneSig : Text := "Sent from my iPhone".data

/-- Literal of the `Sent from my Android` trailing-signature regex. -/
def androidSig : Text := "Sent from my Android".data

/-- First alternative of the `Get Outlook for (iOS|Android)` regex. -/
def outlookIOS : Text := "Get Outlook for iOS".data

/-- Second alternative of the `Get Outlook for (iOS|Android)` regex. -/
def outlookAndroid : Text := "Get Outlook for Android".data

/-- Does the suffix `s` match `\n+L\s*$` for one of the literals `L`?  The
literals start with a non-newline, so the `\n+` must swallow the whole leading
newline run; `$` then forces everything after the literal to be whitespace. -/
def suffixMatchAt (lits : List Text) (s : Text) : Bool :=
  match s with
  | '\n' :: _ =>
    let rest := s.dropWhile (fun c => c = '\n')
    lits.any (fun lit => lit.isPrefixOf rest && (rest.drop lit.length).all pySpace)
  | _ => false

/-- Leftmost start position of a `\n+L\s*$` match in `s`, if any; mirrors the
scan order of `re.sub` (the patterns are end-anchored, so at most one
non-overlapping match exists). -/
def findCut (lits : List Text) : Text → Option Nat
  | [] => none
  | c :: cs =>
    if suffixMatchAt lits (c :: cs) then some 0
    else (findCut lits cs).map (· + 1)

/-- Model of `re.sub(r'\n+L\s*$', '', s)` for literal alternatives `L`:
delete the matched suffix, if any (gmail_history.py lines 111-113). -/
def subRemove (lits : List Text) (s : Text) : Text :=
  match findCut lits s with
  | some p => s.take p
  | none => s

/-- The post-processing applied to the joined kept lines: the three `re.sub`
calls of gmail_history.py lines 111-113 followed by `result.strip()`. -/
def postProcess (result : Text) : Text :=
  pyStrip (subRemove [outlookIOS, outlookAndroid]
    (subRemove [androidSig] (subRemove [iPhoneSig] result)))

/-- Model of `extract_your_content(body, email_date)` (gmail_history.py
lines 33-115).  The `email_date` argument is unused in the source as well.
Empty body returns empty; if no lines were kept the raw body is returned
(fail-open, line 104-105); otherwise the kept lines are joined, the trailing
device signatures removed, and the result stripped. -/
def extract_your_content (body : Text) (emailDate : Text) : Text :=
  if body.isEmpty then []
  else if (scanAll (splitLines body)).isEmpty && !(splitLines body).isEmpty then
    body
  else postProcess (joinLines (scanAll (splitLines body)))

/-- The tiktoken encoder for a model, as used through `get_encoder` /
`count_tokens` (findvoice.py lines 156-167): an opaque pair of maps between
text and token sequences.  All claims quantify over it. -/
structure Tokenizer where
  encode : Text → List Nat
  decode : List Nat → Text

/-- Model of `count_tokens`: the length of the encoding. -/
def Tokenizer.count (tk : Tokenizer) (s : Text) : Nat := (tk.encode s).length

/-- A concrete tokenizer for witnesses and counterexamples: one token per
character (a valid instantiation of the opaque tokenizer interface). -/
def charTok : Tokenizer := ⟨fun s => s.map Char.toNat, fun l => l.map Char.ofNat⟩

/- ----------------------------------------------------------------
The email-boundary regex
  (Email ID: [^\n]+\nDate: [^\n]+\nTo: [^\n]+\nSubject: [^\n]+
   \nYour Content:[\s\S]+?={80})
used by both split_into_chunks (findvoice.py line 174) and
apply_second_stage_filter (line 288), implemented as a direct scanner.
---------------------------------------------------------------- -/

/-- Match `[^\n]+\n` at the head of `s1`, returning the remainder.  The
greedy `[^\n]+` cannot cross the newline, so it is exactly the run up to the
next newline, required nonempty. -/
def matchHeaderRest (s1 : Text) : Option Text :=
  if (s1.takeWhile (fun c => c ≠ '\n')).isEmpty then none
  else
    match s1.drop (s1.takeWhile (fun c => c ≠ '\n')).length with
    | '\n' :: rest => some rest
    | _ => none

/-- Match `lit[^\n]+\n` at the head of `s`, returning the remainder. -/
def matchHeaderLine (lit : Text) (s : Text) : Option Text :=
  if lit.isPrefixOf s then matchHeaderRest (s.drop lit.length)
  else none

/-- A run of exactly 80 equals signs, the `={80}` terminator. -/
def eq80 : Text := List.replicate 80 '='

/-- Scan for the earliest position where `={80}` matches, consuming it; models
the lazy expansion of `[\s\S]+?={80}` after at least one character. -/
def matchLazyEqGo (s : Text) : Option Text :=
  if eq80.isPrefixOf s then some (s.drop 80)
  else
    match s with
    | [] => none
    | _ :: rest => matchLazyEqGo rest

/-- Match `[\s\S]+?={80}` at the head of `s`: consume at least one character,
then the earliest 80-equals run. -/
def matchLazyEq : Text → Option Text
  | [] => none
  | _ :: cs => matchLazyEqGo cs

/-- Match the full email-boundary pattern at the head of `s`, returning the
remainder after the match. -/
def matchEmailAt (s : Text) : Option Text := do
  let r1 ← matchHeaderLine "Email ID: ".data s
  let r2 ← matchHeaderLine "Date: ".data r1
  let r3 ← matchHeaderLine "To: ".data r2
  let r4 ← matchHeaderLine "Subject: ".data r3
  if "Your Content:".data.isPrefixOf r4 then matchLazyEq (r4.drop 13)
  else none

/-- Scan of `re.findall`: try the pattern at each position, left to right,
non-overlapping; on success continue after the match.  Every step consumes at
least one character, so fuel equal to the text length never runs out. -/
def findEmailsAux : Nat → Text → List Text
  | 0, _ => []
  | _, [] => []
  | fuel + 1, c :: cs =>
    match matchEmailAt (c :: cs) with
    | some rest =>
      (c :: cs).take ((c :: cs).length - rest.length) :: findEmailsAux fuel rest
    | none => findEmailsAux fuel cs

/-- Model of `re.findall(email_pattern, text)`. -/
def findEmails (text : Text) : List Text := findEmailsAux text.length text

/- ----------------------------------------------------------------
The chunker: split_into_chunks (findvoice.py lines 169-208).
---------------------------------------------------------------- -/

/-- The marker prefixed to an oversized record chunk (findvoice.py line 192),
including the newline of the f-string. -/
def largeMarker : Text := "[Large email split into multiple chunks]\n".data

/-- The accumulation loop of `split_into_chunks` over the matched emails,
carrying `current_chunk` and `current_tokens`.  Note that the truncation
`email[:chunk_size]` is a character slice, and that the joining newline is
not added to `current_tokens`. -/
def splitChunksAux (tk : Tokenizer) (chunkSize : Nat) :
    List Text → Text → Nat → List Text
  | [], cur, _ => if cur.isEmpty then [] else [cur]
  | e :: rest, cur, curTok =>
    let eTok := tk.count e
    if chunkSize < eTok then
      (if cur.isEmpty then [] else [cur]) ++
        (largeMarker ++ e.take chunkSize) :: splitChunksAux tk chunkSize rest [] 0
    else if chunkSize < curTok + eTok then
      cur :: splitChunksAux tk chunkSize rest e eTok
    else
      splitChunksAux tk chunkSize rest
        (cur ++ (if cur.isEmpty then [] else ['\n']) ++ e) (curTok + eTok)

/-- Model of `split_into_chunks(text, chunk_size, overlap, model)`.  The
`overlap` parameter is accepted and unused, exactly as in the source (the
record-based path never reads it). -/
def split_into_chunks (tk : Tokenizer) (text : Text) (chunkSize overlap : Nat) :
    List Text :=
  splitChunksAux tk chunkSize (findEmails text) [] 0

/-- Sum of the per-record token counts of a group of records; this is the
quantity `current_tokens` tracks (separator newlines are not included). -/
def sumTok (tk : Tokenizer) (g : List Text) : Nat := (g.map tk.count).sum

/-- How a group of records is rendered as one chunk: an oversized single
record becomes the marker plus its first `chunkSize` characters; any other
group is joined with single newlines. -/
def renderChunk (tk : Tokenizer) (chunkSize : Nat) (g : List Text) : Text :=
  match g with
  | [e] =>
    if chunkSize < tk.count e then largeMarker ++ e.take chunkSize
    else joinLines g
  | _ => joinLines g

/- ----------------------------------------------------------------
First stage: process_chunk / process_chunks_parallel
(findvoice.py lines 210-267 and 383-432).
---------------------------------------------------------------- -/

/-- Environment of the first-stage reducer: the tokenizer and the completion
service.  `complete chunk = some text` models a call (possibly after retries)
that eventually succeeds with `text`; `none` models exhausting the 5
attempts. -/
structure FirstStageEnv where
  tk : Tokenizer
  complete : Text → Option Text

/-- The failure notice written after exhausting retries
(findvoice.py line 263). -/
def failNotice (chunkNumber : Nat) : Text :=
  "[Processing failed for chunk ".data ++ (toString chunkNumber).data ++ "]".data

/-- The separator appended after every segment (findvoice.py lines 241, 265). -/
def sep2 : Text := "\n\n".data

/-- Model of `process_chunk`: the pair of (segment appended to the shared
output under the file lock, returned token count).  Success appends the
filtered content plus the separator and returns its token count; failure
appends the failure notice plus the separator and returns 0. -/
def process_chunk (env : FirstStageEnv) (chunkNumber : Nat) (chunk : Text) :
    Text × Nat :=
  match env.complete chunk with
  | some filtered => (filtered ++ sep2, env.tk.count filtered)
  | none => (failNotice chunkNumber ++ sep2, 0)

/-- The per-chunk results of `process_chunks_parallel`, in task order
(chunk numbers are 1-based, findvoice.py line 398). -/
def chunkResults (env : FirstStageEnv) (chunks : List Text) : List (Text × Nat) :=
  chunks.enum.map (fun p => process_chunk env (p.1 + 1) p.2)

/-- The first-stage total, `sum(token_count for token_count in output_tokens)`
(findvoice.py line 407). -/
def firstStageTotal (env : FirstStageEnv) (chunks : List Text) : Nat :=
  ((chunkResults env chunks).map Prod.snd).sum

/- ----------------------------------------------------------------
Second stage: apply_second_stage_filter /
process_single_second_stage_chunk (findvoice.py lines 269-381).
---------------------------------------------------------------- -/

/-- Environment of the second-stage converger.  `complete content target`
models the completion call of `process_single_second_stage_chunk` whose
system message names `target` as the token budget; `none` models exhausting
the 5 attempts.  `promptTemplateEmpty` is the second-stage prompt template
formatted with empty content; the code only uses its token count
(findvoice.py line 280). -/
structure SecondStageEnv where
  tk : Tokenizer
  complete : Text → Nat → Option Text
  promptTemplateEmpty : Text

/-- Model of `process_single_second_stage_chunk`: the eventual completion
output, or the empty string after exhausting retries (findvoice.py
line 381). -/
def process_single_second_stage_chunk (env : SecondStageEnv) (content : Text)
    (targetTokens : Nat) : Text :=
  match env.complete content targetTokens with
  | some t => t
  | none => []

/-- Group a list into consecutive blocks of `n` elements, the shape of
`[emails[i:i+50] for i in range(0, len(emails), 50)]` and of the token-window
fallback.  Total (returns `[]` for `n = 0`; both call sites guard `n ≥ 1`). -/
def takeChunks (n : Nat) : List α → List (List α)
  | [] => []
  | x :: xs =>
    if h : n = 0 then []
    else (x :: xs).take n :: takeChunks n ((x :: xs).drop n)
termination_by l => l.length
decreasing_by simp; omega

/-- Model of `sep.join(pieces)`. -/
def joinSep (sep : Text) : List Text → Text
  | [] => []
  | [l] => l
  | l :: l2 :: ls => l ++ sep ++ joinSep sep (l2 :: ls)

/-- The sequential batch loop of `apply_second_stage_filter` (findvoice.py
lines 308-323): process each chunk with the proportional sub-target,
accumulate with a double-newline separator, and stop early once the running
total reaches the target. -/
def secondStageLoop (env : SecondStageEnv) (targetTokens numChunks : Nat) :
    List Text → Text → Text
  | [], combined => combined
  | c :: rest, combined =>
    let proportional := max (targetTokens / numChunks) 1000
    let combined2 :=
      combined ++ process_single_second_stage_chunk env c proportional ++ sep2
    if targetTokens ≤ env.tk.count combined2 then combined2
    else secondStageLoop env targetTokens numChunks rest combined2

/-- Model of `apply_second_stage_filter(content, model, max_tokens,
target_tokens)` (findvoice.py lines 269-342).  Returns `none` exactly where
the python would raise: the token-window fallback with `chunk_size = 0`
(`range` rejects a zero step); a negative `available_tokens` makes the
`range` empty, yielding no chunks. -/
def apply_second_stage_filter (env : SecondStageEnv) (content : Text)
    (targetTokens : Nat) : Option Text :=
  let contentTokens := env.tk.count content
  if contentTokens ≤ targetTokens then some content
  else
    let modelMaxTokens : Int := 120000
    let promptTemplateTokens : Int := env.tk.count env.promptTemplateEmpty
    let availableTokens : Int := modelMaxTokens - promptTemplateTokens - 1000
    if availableTokens < (contentTokens : Int) then
      let emails := findEmails content
      let chunksOpt : Option (List Text) :=
        if emails.isEmpty then
          if availableTokens = 0 then none
          else if availableTokens < 0 then some []
          else
            some ((takeChunks availableTokens.toNat (env.tk.encode content)).map
              env.tk.decode)
        else some ((takeChunks 50 emails).map (joinSep sep2))
      match chunksOpt with
      | none => none
      | some chunks =>
        let combined := secondStageLoop env targetTokens chunks.length chunks []
        let finalTokens := env.tk.count combined
        if targetTokens < finalTokens then
          if (finalTokens : Int) < availableTokens then
            some (process_single_second_stage_chunk env combined targetTokens)
          else some (env.tk.decode ((env.tk.encode combined).take targetTokens))
        else some combined
    else some (process_single_second_stage_chunk env content targetTokens)

/- ----------------------------------------------------------------
Fetch coordinator: gmail_history.fetch_emails (lines 117-280) and
app.fetch_emails_async (app.py lines 451-632), modelled as storage-append
event traces over the corpus blob (sent_emails.txt) and the progress blob
(email_fetch_progress.txt).
---------------------------------------------------------------- -/

/-- One durable append to blob storage: either record content appended to the
corpus blob, or ids appended to the progress blob. -/
inductive SEvent where
  | corpus (content : Text)
  | progress (ids : Text)
deriving DecidableEq

/-- The decoded fields of one fetched message. -/
structure GmailDetail where
  date : Text
  toAddr : Text
  subject : Text
  body : Text
deriving DecidableEq

/-- One message listed by the source: its id, and its full detail, or `none`
when fetching/decoding the detail raises (the caught per-record error). -/
structure GmailMessage where
  msgId : Text
  detail : Option GmailDetail
deriving DecidableEq

/-- The `'='*80` rule separating serialized records. -/
def ruleLine : Text := List.replicate 80 '='

/-- The serialized record entry built by both fetch loops (gmail_history.py
lines 215-221, app.py line 573). -/
def emailEntry (msgId : Text) (d : GmailDetail) : Text :=
  "Email ID: ".data ++ msgId ++ "\nDate: ".data ++ d.date ++ "\nTo: ".data ++
    d.toAddr ++ "\nSubject: ".data ++ d.subject ++ "\nYour Content:\n".data ++
    extract_your_content d.body d.date ++ ['\n'] ++ ruleLine ++ sep2

/-- The mutable counters of a fetch run.  The processed-id set is modelled as
a list with membership. -/
structure FetchState where
  processed : List Text
  totalFetched : Nat
  actualProcessed : Nat
  limitReached : Bool

/-- The per-message loop of `gmail_history.fetch_emails` over one page
(lines 173-254), emitting the storage events of the batched flushes.  `i` is
the enumeration index, `batch`/`newIds` the two accumulation buffers.  An
already-processed id `continue`s before the counter; reaching the limit
breaks, discarding unflushed buffers; a per-message error skips the append
and the flush for that index.  The flush (lines 239-245) appends the batch
content and then the corresponding ids, every 20 messages or at the last
index. -/
def gmailPageLoop (limit batchSize : Nat) :
    List GmailMessage → Nat → FetchState → Text → Text → FetchState × List SEvent
  | [], _, st, _, _ => (st, [])
  | m :: rest, i, st, batch, newIds =>
    if st.processed.contains m.msgId then
      gmailPageLoop limit batchSize rest (i + 1) st batch newIds
    else if limit ≤ st.totalFetched then
      ({ st with limitReached := true }, [])
    else
      match m.detail with
      | none =>
        gmailPageLoop limit batchSize rest (i + 1)
          { st with totalFetched := st.totalFetched + 1 } batch newIds
      | some d =>
        let batch2 := batch ++ emailEntry m.msgId d
        let newIds2 := newIds ++ m.msgId ++ ['\n']
        let st2 : FetchState :=
          { processed := m.msgId :: st.processed,
            totalFetched := st.totalFetched + 1,
            actualProcessed := st.actualProcessed + 1,
            limitReached := st.limitReached }
        if (i + 1) % 20 = 0 || i = batchSize - 1 then
          if batch2.isEmpty then
            gmailPageLoop limit batchSize rest (i + 1) st2 batch2 newIds2
          else
            let next := gmailPageLoop limit batchSize rest (i + 1) st2 [] []
            (next.1, SEvent.corpus batch2 :: SEvent.progress newIds2 :: next.2)
        else gmailPageLoop limit batchSize rest (i + 1) st2 batch2 newIds2

/-- The pagination loop of `gmail_history.fetch_emails`: one page after
another, with fresh buffers per page, stopping on the limit flag or an empty
page (the end of the supplied pages models an absent next-page token). -/
def gmailFetchRun (limit : Nat) : List (List GmailMessage) → FetchState → List SEvent
  | [], _ => []
  | page :: restPages, st =>
    if st.limitReached then []
    else if page.isEmpty then []
    else
      let r := gmailPageLoop limit page.length page 0 st [] []
      r.2 ++ gmailFetchRun limit restPages r.1

/-- The per-message loop of `app.fetch_emails_async` over one page (app.py
lines 516-591): the limit is checked first, `total_fetched` is incremented
before the duplicate check, and appends happen per record — the corpus entry
(line 574) then the id (line 578); a record whose extraction is empty is
marked in the progress blob only (line 568), with no corpus append. -/
def appPageLoop (emailLimit : Nat) :
    List GmailMessage → FetchState → FetchState × List SEvent
  | [], st => (st, [])
  | m :: rest, st =>
    if emailLimit ≤ st.totalFetched then ({ st with limitReached := true }, [])
    else
      let st1 := { st with totalFetched := st.totalFetched + 1 }
      if st1.processed.contains m.msgId then appPageLoop emailLimit rest st1
      else
        match m.detail with
        | none => appPageLoop emailLimit rest st1
        | some d =>
          let yourContent := extract_your_content d.body d.date
          if (pyStrip yourContent).isEmpty then
            let st2 := { st1 with processed := m.msgId :: st1.processed }
            let next := appPageLoop emailLimit rest st2
            (next.1, SEvent.progress (m.msgId ++ ['\n']) :: next.2)
          else
            let st2 : FetchState :=
              { processed := m.msgId :: st1.processed,
                totalFetched := st1.totalFetched,
                actualProcessed := st1.actualProcessed + 1,
                limitReached := st1.limitReached }
            let next := appPageLoop emailLimit rest st2
            (next.1,
              SEvent.corpus (emailEntry m.msgId d) ::
                SEvent.progress (m.msgId ++ ['\n']) :: next.2)

/-- The pagination loop of `app.fetch_emails_async` (app.py lines 486-606). -/
def appFetchRun (emailLimit : Nat) :
    List (List GmailMessage) → FetchState → List SEvent
  | [], _ => []
  | page :: restPages, st =>
    if emailLimit ≤ st.totalFetched then []
    else if page.isEmpty then []
    else
      let r := appPageLoop emailLimit page st
      if r.1.limitReached then r.2
      else r.2 ++ appFetchRun emailLimit restPages r.1

/-- A fresh fetch state resuming from a persisted processed-id set. -/
def initFetch (processed : List Text) : FetchState := ⟨processed, 0, 0, false⟩

/-- The `maxResults` argument passed by `gmail_history.fetch_emails`
(line 153): the constant 100, regardless of the remaining budget. -/
def gmailListMaxResults : Nat := 100

/-- The `maxResults` argument passed by `app.fetch_emails_async` (app.py
line 499): `min(100, email_limit - total_fetched)`. -/
def appListMaxResults (emailLimit totalFetched : Int) : Int :=
  min 100 (emailLimit - totalFetched)

/- ----------------------------------------------------------------
Derived notions used by the theorem statements.
---------------------------------------------------------------- -/

/-- The corpus content of one flushed batch: the concatenation of the
serialized entries accumulated in `batch_content`. -/
def concatEntries (b : List (Text × GmailDetail)) : Text :=
  (b.map (fun p => emailEntry p.1 p.2)).flatten

/-- The progress content of one flushed batch: the concatenation of the
newline-terminated ids accumulated in `new_processed_ids`. -/
def concatIds (b : List (Text × GmailDetail)) : Text :=
  (b.map (fun p => p.1 ++ ['\n'])).flatten

/-- The two storage events of one flush: the corpus append followed by the
progress append of the same batch. -/
def flushEvents (b : List (Text × GmailDetail)) : List SEvent :=
  [SEvent.corpus (concatEntries b), SEvent.progress (concatIds b)]

/-- Well-formedness of a removal literal: nonempty, newline-free, and with
non-whitespace first and last characters.  All four device-signature
literals satisfy it. -/
def litOK (lit : Text) : Bool :=
  !lit.isEmpty && !lit.contains '\n' && !pySpace (lit.headD ' ') &&
    !pySpace (lit.getLastD ' ')

/-- The four device-signature literals targeted by the postprocessing
substitutions. -/
def boilerLits : List Text := [iPhoneSig, androidSig, outlookIOS, outlookAndroid]

/-- Right-strip of a line list, working from the right: drop trailing
all-whitespace lines, then right-trim the last survivor. -/
def rstripAux : List Text → List Text
  | [] => []
  | m :: rest => if (rtrim m).isEmpty then rstripAux rest else rtrim m :: rest

/-- The effect of `str.strip()` on the line decomposition of a joined text:
trailing blank lines disappear and the last surviving line is right-trimmed. -/
def rstripLines (ms : List Text) : List Text := (rstripAux ms.reverse).reverse

/-- A line is blank when its stripped form is empty. -/
def isBlankLine (l : Text) : Bool := (pyStrip l).isEmpty

/- Concrete instances used by witnesses and counterexamples. -/

/-- A minimal serialized record matching the email-boundary pattern. -/
def recA : Text :=
  "Email ID: a\nDate: b\nTo: c\nSubject: d\nYour Content:e".data ++ eq80

/-- A second minimal serialized record. -/
def recB : Text :=
  "Email ID: f\nDate: g\nTo: h\nSubject: i\nYour Content:j".data ++ eq80

/-- A second-stage environment whose completion service ignores the requested
budget and returns ten characters. -/
def cexSSEnv : SecondStageEnv := ⟨charTok, fun _ _ => some "0123456789".data, []⟩

/-- A second-stage environment whose completion service always returns the
empty string (vacuously budget-compliant). -/
def wSSEnv : SecondStageEnv := ⟨charTok, fun _ _ => some [], []⟩

/-- A first-stage environment that succeeds only on the chunk `ok`,
echoing `yes`. -/
def wFSEnv : FirstStageEnv :=
  ⟨charTok, fun c => if c = "ok".data then some "yes".data else none⟩

/-- A one-message page whose body extracts to nothing (empty body): the
app.py loop marks it processed without any corpus append. -/
def emptyBodyMsg : GmailMessage :=
  ⟨"m1".data, some ⟨"d".data, "t".data, "s".data, []⟩⟩

/- ================================================================
Theorems.
================================================================ -/

/-- Helper: the returned token count of a failed chunk is zero; of a
successful chunk, the count of the filtered content. -/
theorem process_chunk_snd (env : FirstStageEnv) (n : Nat) (c : Text) :
    (process_chunk env n c).2 =
      match env.complete c with
      | some t => env.tk.count t
      | none => 0 := by
  cases h : env.complete c <;> simp [process_chunk, h]

/-- Helper: the sum of returned counts over an enumerated chunk list equals
the summed counts of the successful responses, whatever the start index. -/
theorem firstStageSum (env : FirstStageEnv) :
    ∀ (chunks : List Text) (k : Nat),
      ((chunks.enumFrom k).map (fun p => (process_chunk env (p.1 + 1) p.2).2)).sum =
        ((chunks.filterMap env.complete).map env.tk.count).sum := by
  intro chunks
  induction chunks with
  | nil => intro k; simp
  | cons c cs ih =>
    intro k
    simp only [List.enumFrom, List.map_cons, List.sum_cons]
    rw [process_chunk_snd]
    cases h : env.complete c with
    | some t => simp [List.filterMap_cons, h, ih]
    | none => simp [List.filterMap_cons, h, ih]

/-- Claim C6: for any mix of per-chunk success and failure, the parallel
reducer produces exactly one output segment per chunk, a failed chunk yields
the failure notice and returns 0 tokens, and the reported total equals the
sum of the token counts of the successful responses. -/
theorem parallel_reducer_accounting (env : FirstStageEnv) (chunks : List Text) :
    (chunkResults env chunks).length = chunks.length ∧
    firstStageTotal env chunks =
      ((chunks.filterMap env.complete).map env.tk.count).sum ∧
    ∀ p ∈ chunks.enum, env.complete p.2 = none →
      process_chunk env (p.1 + 1) p.2 = (failNotice (p.1 + 1) ++ sep2, 0) := by
  refine ⟨by simp [chunkResults], ?_, ?_⟩
  · have h := firstStageSum env chunks 0
    simpa [firstStageTotal, chunkResults, List.enum, List.map_map,
      Function.comp] using h
  · intro p _ hnone
    simp [process_chunk, hnone]

/-- Witness for C6 at a concrete two-chunk run with one success and one
failure. -/
theorem parallel_reducer_accounting_witness :
    process_chunk wFSEnv 2 "bad".data = (failNotice 2 ++ sep2, 0) ∧
    firstStageTotal wFSEnv ["ok".data, "bad".data] = 3 := by
  have h := parallel_reducer_accounting wFSEnv ["ok".data, "bad".data]
  refine ⟨h.2.2 (1, "bad".data) (by decide) (by decide), ?_⟩
  rw [h.2.1]; decide

/-- Claim C8 (amended): the async coordinator caps every page request at
`min(100, N - totalFetched)`; the synchronous loop always requests 100. -/
theorem page_size_capped (emailLimit totalFetched : Int) :
    (appListMaxResults emailLimit totalFetched ≤ 100 ∧
      appListMaxResults emailLimit totalFetched ≤ emailLimit - totalFetched) ∧
    gmailListMaxResults = 100 :=
  ⟨⟨min_le_left _ _, min_le_right _ _⟩, rfl⟩

/-- Counterexample to C8 as stated: with record limit 5 and nothing fetched
yet, gmail_history.fetch_emails still requests a page of size 100 > 5 - 0. -/
theorem page_size_cex :
    gmailListMaxResults = 100 ∧ ¬((gmailListMaxResults : Int) ≤ 5 - 0) := by
  decide

/-- Helper: a single second-stage call stays within the requested budget as
soon as the completion service does (a failed call returns the empty
string). -/
theorem pssc_bounded (env : SecondStageEnv)
    (hc : ∀ c t r, env.complete c t = some r → env.tk.count r ≤ t)
    (he : env.tk.encode [] = []) (c : Text) (t : Nat) :
    env.tk.count (process_single_second_stage_chunk env c t) ≤ t := by
  cases h : env.complete c t with
  | some r => simpa [process_single_second_stage_chunk, h] using hc c t r h
  | none => simp [process_single_second_stage_chunk, h, Tokenizer.count, he]

/-- Claim C1 (amended): the second-stage converger returns at most
`targetTokens` tokens provided every completion response respects the budget
named in its request and the tokenizer is monotone under decoding; the code
itself only enforces the ceiling in the hard-truncation branch. -/
theorem second_stage_bounded (env : SecondStageEnv) (content : Text)
    (targetTokens : Nat) (result : Text)
    (hc : ∀ c t r, env.complete c t = some r → env.tk.count r ≤ t)
    (he : env.tk.encode [] = [])
    (hd : ∀ l, env.tk.count (env.tk.decode l) ≤ l.length)
    (hres : apply_second_stage_filter env content targetTokens = some result) :
    env.tk.count result ≤ targetTokens := by
  unfold apply_second_stage_filter at hres
  by_cases h1 : env.tk.count content ≤ targetTokens
  · simp only [h1, if_true] at hres
    cases hres
    exact h1
  · simp only [h1, if_false] at hres
    by_cases h2 :
        (120000 - (env.tk.count env.promptTemplateEmpty : Int) - 1000 <
          (env.tk.count content : Int))
    · simp only [h2, if_true] at hres
      revert hres
      generalize hch :
        (if (findEmails content).isEmpty then
            if (120000 - (env.tk.count env.promptTemplateEmpty : Int) - 1000) = 0 then
              (none : Option (List Text))
            else if (120000 - (env.tk.count env.promptTemplateEmpty : Int) - 1000) < 0 then
              some []
            else
              some ((takeChunks
                (120000 - (env.tk.count env.promptTemplateEmpty : Int) - 1000).toNat
                  (env.tk.encode content)).map env.tk.decode)
          else some ((takeChunks 50 (findEmails content)).map (joinSep sep2))) = copt
      cases copt with
      | none => intro hres; cases hres
      | some chunks =>
        intro hres
        by_cases h3 :
            targetTokens <
              env.tk.count (secondStageLoop env targetTokens chunks.length chunks [])
        · simp only [h3, if_true] at hres
          by_cases h4 :
              ((env.tk.count (secondStageLoop env targetTokens chunks.length chunks []) : Int) <
                120000 - (env.tk.count env.promptTemplateEmpty : Int) - 1000)
          · simp only [h4, if_true] at hres
            cases hres
            exact pssc_bounded env hc he _ _
          · simp only [h4, if_false] at hres
            cases hres
            calc env.tk.count (env.tk.decode ((env.tk.encode
                    (secondStageLoop env targetTokens chunks.length chunks [])).take
                      targetTokens)) ≤
                ((env.tk.encode (secondStageLoop env targetTokens chunks.length
                    chunks [])).take targetTokens).length := hd _
              _ ≤ targetTokens := by
                  simp [List.length_take]
        · simp only [h3, if_false] at hres
          cases hres
          omega
    · simp only [h2, if_false] at hres
      cases hres
      exact pssc_bounded env hc he _ _

/-- Witness for the amended C1 at a concrete compliant environment. -/
theorem second_stage_bounded_witness : wSSEnv.tk.count [] ≤ 1 :=
  second_stage_bounded wSSEnv "abc".data 1 []
    (fun c t r h => by
      have hr : r = [] := by
        have h2 : some ([] : Text) = some r := h
        exact (Option.some.inj h2).symm
      subst hr
      simp [wSSEnv, charTok, Tokenizer.count])
    rfl
    (fun l => by simp [wSSEnv, charTok, Tokenizer.count])
    (by decide)

/-- Counterexample to C1 as stated: a completion response that ignores the
budget is returned unchecked by the model-selection branch, exceeding the
target of 5 tokens. -/
theorem second_stage_cex :
    apply_second_stage_filter cexSSEnv "aaaaaa".data 5 = some "0123456789".data ∧
    ¬(cexSSEnv.tk.count "0123456789".data ≤ 5) := by
  decide

/- ----------------------------------------------------------------
Chunker lemmas (claims C3, C4).
---------------------------------------------------------------- -/

/-- Helper: joining at least two lines prepends the first line and a
newline. -/
theorem joinLines_cons_cons (l l2 : Text) (ls : List Text) :
    joinLines (l :: l2 :: ls) = l ++ '\n' :: joinLines (l2 :: ls) := rfl

/-- Helper: a join of nonempty lines is nonempty. -/
theorem joinLines_ne_nil :
    ∀ (ps : List Text), ps ≠ [] → (∀ p ∈ ps, p ≠ []) → joinLines ps ≠ []
  | [], h, _ => absurd rfl h
  | [p], _, h1 => by simpa [joinLines] using h1 p (by simp)
  | p :: p2 :: ps, _, _ => by simp [joinLines_cons_cons]

/-- Helper: emptiness of a join of nonempty lines mirrors emptiness of the
line list. -/
theorem joinLines_isEmpty (ps : List Text) (h : ∀ p ∈ ps, p ≠ []) :
    (joinLines ps).isEmpty = ps.isEmpty := by
  cases hp : ps with
  | nil => rfl
  | cons p ps2 =>
    have := joinLines_ne_nil (p :: ps2) (by simp) (hp ▸ h)
    simp [List.isEmpty_iff, this]

/-- Helper: appending one more line to a join. -/
theorem joinLines_append_singleton (ps : List Text) (e : Text) :
    joinLines (ps ++ [e]) =
      joinLines ps ++ (if ps.isEmpty then [] else ['\n']) ++ e := by
  induction ps with
  | nil => simp [joinLines]
  | cons p ps ih =>
    cases ps with
    | nil => simp [joinLines]
    | cons q qs =>
      have h1 : (p :: q :: qs) ++ [e] = p :: ((q :: qs) ++ [e]) := rfl
      have h2 : (q :: qs) ++ [e] = q :: (qs ++ [e]) := rfl
      rw [h1, h2, joinLines_cons_cons, ← h2, ih, joinLines_cons_cons]
      simp

/-- Helper: the tracked token sum over an extended pending group. -/
theorem sumTok_append_singleton (tk : Tokenizer) (ps : List Text) (e : Text) :
    sumTok tk (ps ++ [e]) = sumTok tk ps + tk.count e := by
  simp [sumTok]

/-- Helper: the tracked token sum of a single record. -/
theorem sumTok_singleton (tk : Tokenizer) (e : Text) :
    sumTok tk [e] = tk.count e := by
  simp [sumTok]

/-- Helper: a group whose record token counts fit the budget is rendered as a
plain newline join. -/
theorem renderChunk_of_sum_le (tk : Tokenizer) (chunkSize : Nat)
    (g : List Text) (h : sumTok tk g ≤ chunkSize) :
    renderChunk tk chunkSize g = joinLines g := by
  match g with
  | [] => rfl
  | [e] =>
    have he : tk.count e ≤ chunkSize := by simpa [sumTok] using h
    simp [renderChunk, Nat.not_lt.2 he]
  | a :: b :: g2 => rfl

/-- Helper: a successful remainder match strictly shortens the text. -/
theorem matchHeaderRest_length {s1 r : Text}
    (h : matchHeaderRest s1 = some r) : r.length < s1.length := by
  unfold matchHeaderRest at h
  split at h
  · exact absurd h (by simp)
  · split at h
    · rename_i rest heq
      cases h
      have hlen := congrArg List.length heq
      simp [List.length_drop] at hlen
      omega
    · exact absurd h (by simp)

/-- Helper: a successful header-line match strictly shortens the text. -/
theorem matchHeaderLine_length {lit s r : Text}
    (h : matchHeaderLine lit s = some r) : r.length < s.length := by
  unfold matchHeaderLine at h
  split at h
  · have h1 := matchHeaderRest_length h
    have h2 : (s.drop lit.length).length ≤ s.length := by
      simp [List.length_drop]
    omega
  · exact absurd h (by simp)

/-- Helper: the lazy terminator scan never lengthens the text. -/
theorem matchLazyEqGo_length :
    ∀ (s r : Text), matchLazyEqGo s = some r → r.length ≤ s.length := by
  intro s
  induction s with
  | nil =>
    intro r h
    unfold matchLazyEqGo at h
    split at h
    · cases h; simp
    · exact absurd h (by simp)
  | cons c cs ih =>
    intro r h
    unfold matchLazyEqGo at h
    split at h
    · cases h; simp [List.length_drop]; omega
    · have := ih r h
      simp; omega

/-- Helper: the lazy body match strictly shortens the text. -/
theorem matchLazyEq_length {s r : Text} (h : matchLazyEq s = some r) :
    r.length < s.length := by
  cases s with
  | nil => exact absurd h (by simp [matchLazyEq])
  | cons c cs =>
    have := matchLazyEqGo_length cs r h
    simp; omega

/-- Helper: a full email-boundary match strictly shortens the text. -/
theorem matchEmailAt_length {s r : Text} (h : matchEmailAt s = some r) :
    r.length < s.length := by
  unfold matchEmailAt at h
  cases h1 : matchHeaderLine "Email ID: ".data s with
  | none => rw [h1] at h; exact absurd h (by simp)
  | some r1 =>
    rw [h1] at h
    simp only [Option.bind_eq_bind, Option.some_bind] at h
    cases h2 : matchHeaderLine "Date: ".data r1 with
    | none => rw [h2] at h; exact absurd h (by simp)
    | some r2 =>
      rw [h2] at h
      simp only [Option.bind_eq_bind, Option.some_bind] at h
      cases h3 : matchHeaderLine "To: ".data r2 with
      | none => rw [h3] at h; exact absurd h (by simp)
      | some r3 =>
        rw [h3] at h
        simp only [Option.bind_eq_bind, Option.some_bind] at h
        cases h4 : matchHeaderLine "Subject: ".data r3 with
        | none => rw [h4] at h; exact absurd h (by simp)
        | some r4 =>
          rw [h4] at h
          simp only [Option.bind_eq_bind, Option.some_bind] at h
          split at h
          · have h5 := matchLazyEq_length h
            have e1 := matchHeaderLine_length h1
            have e2 := matchHeaderLine_length h2
            have e3 := matchHeaderLine_length h3
            have e4 := matchHeaderLine_length h4
            have e5 : (r4.drop 13).length ≤ r4.length := by simp
            omega
          · exact absurd h (by simp)

/-- Helper: every string matched by the email-boundary pattern is nonempty. -/
theorem findEmailsAux_mem_ne_nil :
    ∀ (fuel : Nat) (s e : Text), e ∈ findEmailsAux fuel s → e ≠ [] := by
  intro fuel
  induction fuel with
  | zero => intro s e h; simp [findEmailsAux] at h
  | succ n ih =>
    intro s e h
    cases s with
    | nil => simp [findEmailsAux] at h
    | cons c cs =>
      unfold findEmailsAux at h
      split at h
      · rename_i rest hm
        rcases List.mem_cons.1 h with h1 | h1
        · have hlt := matchEmailAt_length hm
          subst h1
          have hk : (c :: cs).length - rest.length ≠ 0 := by
            simp at hlt ⊢; omega
          cases hk2 : (c :: cs).length - rest.length with
          | zero => exact absurd hk2 hk
          | succ m => simp [hk2]
        · exact ih rest e h1
      · exact ih cs e h

/-- Helper: every record found by the email-boundary scan is nonempty. -/
theorem findEmails_ne_nil (text : Text) : ∀ e ∈ findEmails text, e ≠ [] :=
  fun e h => findEmailsAux_mem_ne_nil text.length text e h

/-- Helper: the chunk-accumulation loop partitions its input records into
consecutive nonempty groups; each group either fits the budget by summed
record token counts or is a single oversized record; and the produced chunks
are exactly the rendered groups. -/
theorem splitChunksAux_partition (tk : Tokenizer) (chunkSize : Nat) :
    ∀ (emails pending : List Text) (cur : Text) (curTok : Nat),
      cur = joinLines pending → curTok = sumTok tk pending →
      (∀ e ∈ emails, e ≠ []) → (∀ p ∈ pending, p ≠ []) →
      sumTok tk pending ≤ chunkSize →
      ∃ gs : List (List Text),
        gs.flatten = pending ++ emails ∧
        (∀ g ∈ gs, g ≠ [] ∧ ∀ x ∈ g, x ≠ []) ∧
        (∀ g ∈ gs, (∃ e, g = [e] ∧ chunkSize < tk.count e) ∨
          sumTok tk g ≤ chunkSize) ∧
        splitChunksAux tk chunkSize emails cur curTok =
          gs.map (renderChunk tk chunkSize) := by
  intro emails
  induction emails with
  | nil =>
    intro pending cur curTok hcur htok _ hpe hsum
    subst hcur htok
    cases pending with
    | nil => exact ⟨[], by simp, by simp, by simp, by simp [splitChunksAux, joinLines]⟩
    | cons p ps =>
      refine ⟨[p :: ps], by simp, ?_, ?_, ?_⟩
      · intro g hg; simp at hg; subst hg; exact ⟨by simp, hpe⟩
      · intro g hg; simp at hg; subst hg; exact Or.inr hsum
      · have hne : (joinLines (p :: ps)).isEmpty = false := by
          rw [joinLines_isEmpty _ hpe]; rfl
        simp [splitChunksAux, hne, renderChunk_of_sum_le tk chunkSize _ hsum]
  | cons e rest ih =>
    intro pending cur curTok hcur htok he hpe hsum
    subst hcur htok
    have heNe : e ≠ [] := he e (by simp)
    have heRest : ∀ x ∈ rest, x ≠ [] := fun x hx => he x (by simp [hx])
    by_cases hbig : chunkSize < tk.count e
    · obtain ⟨gs, hflat, hne, hbound, heq⟩ :=
        ih [] [] 0 rfl rfl heRest (by simp) (by simp [sumTok])
      have hrender : renderChunk tk chunkSize [e] = largeMarker ++ e.take chunkSize := by
        simp [renderChunk, hbig]
      cases pending with
      | nil =>
        refine ⟨[e] :: gs, by simp [hflat], ?_, ?_, ?_⟩
        · intro g hg
          rcases List.mem_cons.1 hg with h1 | h1
          · subst h1; exact ⟨by simp, by simpa using heNe⟩
          · exact hne g h1
        · intro g hg
          rcases List.mem_cons.1 hg with h1 | h1
          · subst h1; exact Or.inl ⟨e, rfl, hbig⟩
          · exact hbound g h1
        · simp [splitChunksAux, hbig, joinLines, heq, hrender]
      | cons p ps =>
        refine ⟨(p :: ps) :: [e] :: gs, by simp [hflat], ?_, ?_, ?_⟩
        · intro g hg
          rcases List.mem_cons.1 hg with h1 | h1
          · subst h1; exact ⟨by simp, hpe⟩
          rcases List.mem_cons.1 h1 with h2 | h2
          · subst h2; exact ⟨by simp, by simpa using heNe⟩
          · exact hne g h2
        · intro g hg
          rcases List.mem_cons.1 hg with h1 | h1
          · subst h1; exact Or.inr hsum
          rcases List.mem_cons.1 h1 with h2 | h2
          · subst h2; exact Or.inl ⟨e, rfl, hbig⟩
          · exact hbound g h2
        · have hne2 : (joinLines (p :: ps)).isEmpty = false := by
            rw [joinLines_isEmpty _ hpe]; rfl
          simp [splitChunksAux, hbig, hne2, joinLines, heq, hrender,
            renderChunk_of_sum_le tk chunkSize _ hsum]
    · by_cases hover : chunkSize < sumTok tk pending + tk.count e
      · cases pending with
        | nil => simp [sumTok] at hover; omega
        | cons p ps =>
          obtain ⟨gs, hflat, hne, hbound, heq⟩ :=
            ih [e] e (tk.count e) rfl (sumTok_singleton tk e).symm heRest
              (by intro x hx; simp at hx; subst hx; exact heNe)
              (by rw [sumTok_singleton]; omega)
          refine ⟨(p :: ps) :: gs, by simp [hflat], ?_, ?_, ?_⟩
          · intro g hg
            rcases List.mem_cons.1 hg with h1 | h1
            · subst h1; exact ⟨by simp, hpe⟩
            · exact hne g h1
          · intro g hg
            rcases List.mem_cons.1 hg with h1 | h1
            · subst h1; exact Or.inr hsum
            · exact hbound g h1
          · simp [splitChunksAux, hbig, hover, heq,
              renderChunk_of_sum_le tk chunkSize _ hsum]
      · have hfit : sumTok tk pending + tk.count e ≤ chunkSize := Nat.not_lt.1 hover
        obtain ⟨gs, hflat, hne, hbound, heq⟩ :=
          ih (pending ++ [e])
            (joinLines pending ++ (if (joinLines pending).isEmpty then [] else ['\n']) ++ e)
            (sumTok tk pending + tk.count e)
            (by rw [joinLines_append_singleton, joinLines_isEmpty _ hpe])
            (by rw [sumTok_append_singleton])
            heRest
            (by
              intro x hx
              rcases List.mem_append.1 hx with h1 | h1
              · exact hpe x h1
              · simp at h1; subst h1; exact heNe)
            (by rw [sumTok_append_singleton]; exact hfit)
        refine ⟨gs, by simp [hflat], hne, hbound, ?_⟩
        simp only [List.append_assoc] at heq
        simpa [splitChunksAux, hbig, hover, List.append_assoc] using heq

/-- Claim C4: the chunks of `split_into_chunks` partition the records found
in the input into consecutive nonempty groups in source order — no record is
dropped, duplicated, or split across a chunk boundary — and each chunk is the
rendering of its group (newline join, or the explicit truncation-marker form
for a single oversized record). -/
theorem chunker_preserves_records (tk : Tokenizer) (text : Text)
    (chunkSize overlap : Nat) :
    ∃ gs : List (List Text),
      gs.flatten = findEmails text ∧
      (∀ g ∈ gs, g ≠ []) ∧
      split_into_chunks tk text chunkSize overlap =
        gs.map (renderChunk tk chunkSize) := by
  obtain ⟨gs, h1, h2, _, h4⟩ :=
    splitChunksAux_partition tk chunkSize (findEmails text) [] [] 0 rfl rfl
      (findEmails_ne_nil text) (by simp) (by simp [sumTok])
  exact ⟨gs, by simpa using h1, fun g hg => (h2 g hg).1, h4⟩

/-- Claim C3 (amended): every chunk either is the newline join of a group of
records whose summed per-record token counts stay within chunkSize (the
joining newlines are not themselves counted), or is a single record whose own
token count exceeds chunkSize, rendered as the marker line followed by the
record's first chunkSize characters (a character-level truncation). -/
theorem chunker_bound (tk : Tokenizer) (text : Text) (chunkSize overlap : Nat)
    (c : Text) (hc : c ∈ split_into_chunks tk text chunkSize overlap) :
    (∃ g : List Text, g ≠ [] ∧ c = joinLines g ∧ sumTok tk g ≤ chunkSize) ∨
    (∃ e : Text, chunkSize < tk.count e ∧ c = largeMarker ++ e.take chunkSize) := by
  obtain ⟨gs, _, h2, h3, h4⟩ :=
    splitChunksAux_partition tk chunkSize (findEmails text) [] [] 0 rfl rfl
      (findEmails_ne_nil text) (by simp) (by simp [sumTok])
  rw [show split_into_chunks tk text chunkSize overlap =
      splitChunksAux tk chunkSize (findEmails text) [] 0 from rfl, h4] at hc
  obtain ⟨g, hg, hgc⟩ := List.mem_map.1 hc
  rcases h3 g hg with ⟨e, hge, hbig⟩ | hsum
  · right
    refine ⟨e, hbig, ?_⟩
    rw [← hgc, hge]
    simp [renderChunk, hbig]
  · left
    exact ⟨g, (h2 g hg).1, by rw [← hgc, renderChunk_of_sum_le tk chunkSize g hsum],
      hsum⟩

set_option maxRecDepth 10000 in
/-- Witness for the amended C3 at a concrete one-record input. -/
theorem chunker_bound_witness :
    (∃ g : List Text, g ≠ [] ∧ recA = joinLines g ∧ sumTok charTok g ≤ 200) ∨
    (∃ e : Text, 200 < charTok.count e ∧ recA = largeMarker ++ e.take 200) :=
  chunker_bound charTok recA 200 0 recA (by decide)

set_option maxRecDepth 10000 in
/-- Counterexample to C3 as stated: two 131-token records with chunkSize 262
are packed into one chunk of 263 tokens (the joining newline is uncounted),
and an oversized record is truncated by characters, producing a marker chunk
of 141 tokens for chunkSize 100, not exactly 100 tokens. -/
theorem chunker_bound_cex :
    split_into_chunks charTok (recA ++ recB) 262 0 = [recA ++ '\n' :: recB] ∧
    262 < charTok.count (recA ++ '\n' :: recB) ∧
    findEmails (recA ++ recB) = [recA, recB] ∧
    split_into_chunks charTok recA 100 0 = [largeMarker ++ recA.take 100] ∧
    charTok.count (largeMarker ++ recA.take 100) = 141 := by
  decide

/- ----------------------------------------------------------------
Extractor scan lemmas (claims C2, C7, C9, C10).
---------------------------------------------------------------- -/

/-- Helper: the signature check changes neither the kept content nor the
quote flag. -/
theorem sigUpdate_kept (st : ScanState) (t : Text) :
    (sigUpdate st t).kept = st.kept := by
  unfold sigUpdate; split <;> rfl

/-- Helper: the signature check leaves the quote flag unchanged. -/
theorem sigUpdate_inQuote (st : ScanState) (t : Text) :
    (sigUpdate st t).inQuote = st.inQuote := by
  unfold sigUpdate; split <;> rfl

/-- Helper: once the quote flag is latched, a scan step appends nothing and
keeps the flag. -/
theorem scanStep_inQuote (st : ScanState) (l : Text) (h : st.inQuote = true) :
    (scanStep st l).kept = st.kept ∧ (scanStep st l).inQuote = true := by
  unfold scanStep
  split
  · exact ⟨rfl, rfl⟩
  · split
    · exact ⟨sigUpdate_kept st _, rfl⟩
    · split
      · rename_i hcond
        rw [sigUpdate_inQuote, h] at hcond
        simp at hcond
      · exact ⟨sigUpdate_kept st _, by rw [sigUpdate_inQuote]; exact h⟩

/-- Helper: a scan that starts with the quote flag latched keeps nothing
more. -/
theorem foldl_scan_inQuote (ls : List Text) :
    ∀ st : ScanState, st.inQuote = true →
      (ls.foldl scanStep st).kept = st.kept ∧
        (ls.foldl scanStep st).inQuote = true := by
  induction ls with
  | nil => intro st h; exact ⟨rfl, h⟩
  | cons l ls ih =>
    intro st h
    have h1 := scanStep_inQuote st l h
    simp only [List.foldl_cons]
    obtain ⟨ih1, ih2⟩ := ih (scanStep st l) h1.2
    exact ⟨ih1.trans h1.1, ih2⟩

/-- Claim C2: a line matching a quote-introduction pattern latches the quote
state, so the kept content is exactly what was kept strictly before that
line, and (outside the fail-open case) the output is built from those earlier
lines only. -/
theorem extract_drops_after_quote (body d : Text) (pre : List Text) (l : Text)
    (post : List Text) (hsplit : splitLines body = pre ++ l :: post)
    (hmatch : matchQuoteStart (pyStrip l) = true) :
    scanAll (splitLines body) = scanAll pre ∧
    (scanAll pre ≠ [] →
      extract_your_content body d = postProcess (joinLines (scanAll pre))) := by
  have hstep : scanStep (pre.foldl scanStep initScan) l =
      { pre.foldl scanStep initScan with inQuote := true } := by
    unfold scanStep; rw [if_pos hmatch]
  have hkept : scanAll (splitLines body) = scanAll pre := by
    unfold scanAll
    rw [hsplit, List.foldl_append, List.foldl_cons, hstep]
    rw [(foldl_scan_inQuote post
      { pre.foldl scanStep initScan with inQuote := true } rfl).1]
  refine ⟨hkept, ?_⟩
  intro hne
  have hbody : body.isEmpty = false := by
    cases hb : body with
    | nil =>
      rw [hb] at hsplit
      have hl : l = [] := by
        cases pre with
        | nil =>
          have h2 : ([[]] : List Text) = l :: post := by
            simpa [splitLines, splitLinesAux] using hsplit
          exact (List.cons.inj h2).1.symm
        | cons p pre2 =>
          exfalso
          have hlen := congrArg List.length hsplit
          simp [splitLines, splitLinesAux] at hlen
      rw [hl] at hmatch
      exact absurd hmatch (by decide)
    | cons c cs => rfl
  unfold extract_your_content
  rw [if_neg (by simp [hbody]), hkept,
    if_neg (by simp [List.isEmpty_iff]; intro hc; exact absurd hc hne)]

/-- Witness for C2: a quote-opener in the middle of a body removes it and
everything after it. -/
theorem extract_drops_after_quote_witness :
    extract_your_content "hi\nOn a, b wrote:\nquoted".data [] = "hi".data := by
  have h := extract_drops_after_quote "hi\nOn a, b wrote:\nquoted".data []
    ["hi".data] "On a, b wrote:".data ["quoted".data] (by decide) (by decide)
  rw [h.2 (by decide)]
  decide

/- ----------------------------------------------------------------
Generic list and trim lemmas.
---------------------------------------------------------------- -/

/-- Helper: `isPrefixOf` as an existential decomposition. -/
theorem prefixOf_iff {α : Type} [DecidableEq α] :
    ∀ (l1 l2 : List α), l1.isPrefixOf l2 = true ↔ ∃ t, l2 = l1 ++ t := by
  intro l1
  induction l1 with
  | nil => intro l2; simp [List.isPrefixOf]
  | cons a as ih =>
    intro l2
    cases l2 with
    | nil => simp [List.isPrefixOf]
    | cons b bs =>
      simp only [List.isPrefixOf, Bool.and_eq_true, beq_iff_eq, ih]
      constructor
      · rintro ⟨rfl, t, rfl⟩; exact ⟨t, rfl⟩
      · rintro ⟨t, ht⟩
        injection ht with h1 h2
        exact ⟨h1.symm, t, h2⟩

/-- Helper: a member failing the predicate survives `dropWhile`. -/
theorem mem_dropWhile_of_neg {α : Type} (p : α → Bool) :
    ∀ (l : List α) (x : α), x ∈ l → p x = false → x ∈ l.dropWhile p := by
  intro l
  induction l with
  | nil => intro x hx; simp at hx
  | cons a as ih =>
    intro x hx hp
    rcases List.mem_cons.1 hx with h1 | h1
    · subst h1
      rw [List.dropWhile_cons, hp]
      simp
    · rw [List.dropWhile_cons]
      by_cases hpa : p a = true
      · rw [hpa]; simp; exact ih x h1 hp
      · simp at hpa; rw [hpa]; simp; exact Or.inr h1

/-- Helper: the head surviving `dropWhile` fails the predicate. -/
theorem head_dropWhile_neg {α : Type} (p : α → Bool) :
    ∀ (l : List α) (c : α) (t : List α), l.dropWhile p = c :: t → p c = false := by
  intro l
  induction l with
  | nil => intro c t h; simp [List.dropWhile] at h
  | cons a as ih =>
    intro c t h
    rw [List.dropWhile_cons] at h
    by_cases hpa : p a = true
    · rw [hpa] at h; simp at h; exact ih c t h
    · simp at hpa; rw [hpa] at h; simp at h
      rw [← h.1]; exact hpa

/-- Helper: `dropWhile` is idempotent. -/
theorem dropWhile_idem {α : Type} (p : α → Bool) (l : List α) :
    (l.dropWhile p).dropWhile p = l.dropWhile p := by
  cases h : l.dropWhile p with
  | nil => rfl
  | cons c t =>
    rw [List.dropWhile_cons, head_dropWhile_neg p l c t h]
    simp

/-- Helper: left trim keeps non-whitespace members. -/
theorem mem_ltrim {s : Text} {c : Char} (hc : c ∈ s) (hsp : pySpace c = false) :
    c ∈ ltrim s := mem_dropWhile_of_neg pySpace s c hc hsp

/-- Helper: right trim keeps non-whitespace members. -/
theorem mem_rtrim {s : Text} {c : Char} (hc : c ∈ s) (hsp : pySpace c = false) :
    c ∈ rtrim s := by
  unfold rtrim
  rw [List.mem_reverse]
  exact mem_dropWhile_of_neg pySpace s.reverse c (List.mem_reverse.2 hc) hsp

/-- Helper: stripping keeps non-whitespace members. -/
theorem mem_pyStrip {s : Text} {c : Char} (hc : c ∈ s) (hsp : pySpace c = false) :
    c ∈ pyStrip s := mem_rtrim (mem_ltrim hc hsp) hsp

/-- Helper: a string containing a non-whitespace character strips to a
nonempty string. -/
theorem pyStrip_ne_nil {s : Text} {c : Char} (hc : c ∈ s)
    (hsp : pySpace c = false) : pyStrip s ≠ [] := by
  intro h
  have hm := mem_pyStrip hc hsp
  rw [h] at hm
  simp at hm

/-- Helper: a string with empty strip is all whitespace. -/
theorem all_space_of_pyStrip_nil {s : Text} (h : pyStrip s = []) :
    ∀ c ∈ s, pySpace c = true := by
  intro c hc
  by_contra hne
  simp only [Bool.not_eq_true] at hne
  exact absurd h (pyStrip_ne_nil hc hne)

/-- Helper: left trim is idempotent. -/
theorem ltrim_idem (s : Text) : ltrim (ltrim s) = ltrim s :=
  dropWhile_idem pySpace s

/-- Helper: right trim is idempotent. -/
theorem rtrim_idem (s : Text) : rtrim (rtrim s) = rtrim s := by
  unfold rtrim
  rw [List.reverse_reverse, dropWhile_idem]

/-- Helper: unfolding left trim on a cons. -/
theorem ltrim_cons (c : Char) (t : Text) :
    ltrim (c :: t) = if pySpace c then ltrim t else c :: t := by
  unfold ltrim
  rw [List.dropWhile_cons]

/-- Helper: unfolding right trim on a cons. -/
theorem rtrim_cons (c : Char) (t : Text) :
    rtrim (c :: t) =
      if (rtrim t).isEmpty then (if pySpace c then [] else [c])
      else c :: rtrim t := by
  unfold rtrim
  rw [List.reverse_cons, List.dropWhile_append]
  by_cases h : (t.reverse.dropWhile pySpace).isEmpty = true
  · have h2 : ((t.reverse.dropWhile pySpace).reverse).isEmpty = true := by
      simp only [List.isEmpty_iff] at h ⊢
      simp [h]
    rw [if_pos h, if_pos h2]
    by_cases hc : pySpace c = true
    · simp [List.dropWhile_cons, hc]
    · simp only [Bool.not_eq_true] at hc
      simp [List.dropWhile_cons, hc]
  · have h2 : ((t.reverse.dropWhile pySpace).reverse).isEmpty = false := by
      simp only [List.isEmpty_iff] at h ⊢
      simpa using h
    rw [if_neg h, if_neg (by simp [h2])]
    simp

/-- Helper: left and right trim commute. -/
theorem ltrim_rtrim_comm : ∀ (s : Text), ltrim (rtrim s) = rtrim (ltrim s) := by
  intro s
  induction s with
  | nil => rfl
  | cons c t ih =>
    by_cases hc : pySpace c = true
    · by_cases he : (rtrim t).isEmpty = true
      · have he2 : rtrim t = [] := List.isEmpty_iff.1 he
        rw [rtrim_cons, if_pos he, if_pos hc, ltrim_cons, if_pos hc, ← ih, he2]
      · rw [rtrim_cons, if_neg he, ltrim_cons, if_pos hc, ltrim_cons, if_pos hc, ih]
    · simp only [Bool.not_eq_true] at hc
      by_cases he : (rtrim t).isEmpty = true
      · simp [rtrim_cons, ltrim_cons, he, hc]
      · simp [rtrim_cons, ltrim_cons, he, hc]

/-- Helper: stripping is idempotent. -/
theorem pyStrip_idem (s : Text) : pyStrip (pyStrip s) = pyStrip s := by
  show rtrim (ltrim (rtrim (ltrim s))) = rtrim (ltrim s)
  rw [ltrim_rtrim_comm (ltrim s), ltrim_idem, rtrim_idem]

/-- Helper: stripping after a left trim strips the original. -/
theorem pyStrip_ltrim (s : Text) : pyStrip (ltrim s) = pyStrip s := by
  show rtrim (ltrim (ltrim s)) = rtrim (ltrim s)
  rw [ltrim_idem]

/-- Helper: stripping after a right trim strips the original. -/
theorem pyStrip_rtrim (s : Text) : pyStrip (rtrim s) = pyStrip s := by
  show rtrim (ltrim (rtrim s)) = rtrim (ltrim s)
  rw [ltrim_rtrim_comm s, rtrim_idem]

/- ----------------------------------------------------------------
Splitting and joining lines.
---------------------------------------------------------------- -/

/-- Helper: the split accumulator always yields at least one line. -/
theorem splitLinesAux_ne_nil : ∀ (s cur : Text), splitLinesAux s cur ≠ [] := by
  intro s
  induction s with
  | nil => intro cur; simp [splitLinesAux]
  | cons c rest ih =>
    intro cur
    unfold splitLinesAux
    by_cases hc : c = '\n'
    · rw [if_pos hc]; simp
    · rw [if_neg hc]; exact ih (c :: cur)

/-- Helper: lines produced by splitting contain no newline. -/
theorem splitLinesAux_no_newline :
    ∀ (s cur : Text), '\n' ∉ cur → ∀ l ∈ splitLinesAux s cur, '\n' ∉ l := by
  intro s
  induction s with
  | nil =>
    intro cur hcur l hl
    simp [splitLinesAux] at hl
    subst hl
    simpa using hcur
  | cons c rest ih =>
    intro cur hcur l hl
    unfold splitLinesAux at hl
    by_cases hc : c = '\n'
    · rw [if_pos hc] at hl
      rcases List.mem_cons.1 hl with h1 | h1
      · subst h1; simpa using hcur
      · exact ih [] (by simp) l h1
    · rw [if_neg hc] at hl
      exact ih (c :: cur) (by simp [hcur, Ne.symm hc]) l hl

/-- Helper: no line of a python split contains a newline. -/
theorem splitLines_no_newline (s : Text) : ∀ l ∈ splitLines s, '\n' ∉ l :=
  splitLinesAux_no_newline s [] (by simp)

/-- Helper: joining undoes splitting (split-then-join round trip). -/
theorem joinLines_splitLinesAux :
    ∀ (s cur : Text), joinLines (splitLinesAux s cur) = cur.reverse ++ s := by
  intro s
  induction s with
  | nil => intro cur; simp [splitLinesAux, joinLines]
  | cons c rest ih =>
    intro cur
    unfold splitLinesAux
    by_cases hc : c = '\n'
    · rw [if_pos hc]
      cases hsp : splitLinesAux rest [] with
      | nil => exact absurd hsp (splitLinesAux_ne_nil rest [])
      | cons x xs =>
        rw [joinLines_cons_cons, ← hsp, ih []]
        simp [hc]
    · rw [if_neg hc, ih (c :: cur)]
      simp

/-- Helper: joining the split lines reconstructs the body. -/
theorem joinLines_splitLines (s : Text) : joinLines (splitLines s) = s := by
  unfold splitLines
  rw [joinLines_splitLinesAux]
  rfl

/-- Helper: one unfolding step of the split accumulator. -/
theorem splitLinesAux_cons (c : Char) (rest cur : Text) :
    splitLinesAux (c :: rest) cur =
      if c = '\n' then cur.reverse :: splitLinesAux rest []
      else splitLinesAux rest (c :: cur) := rfl

/-- Helper: splitting across a newline-free prefix accumulates it. -/
theorem splitLinesAux_append :
    ∀ (l s cur : Text), '\n' ∉ l →
      splitLinesAux (l ++ s) cur = splitLinesAux s (l.reverse ++ cur) := by
  intro l
  induction l with
  | nil => intro s cur _; simp
  | cons c cs ih =>
    intro s cur hnl
    have hc : c ≠ '\n' := by intro h; exact hnl (by simp [h])
    show splitLinesAux (c :: (cs ++ s)) cur = _
    rw [splitLinesAux_cons, if_neg hc,
      ih s (c :: cur) (by intro h; exact hnl (by simp [h]))]
    simp

/-- Helper: splitting undoes joining for newline-free nonempty line lists. -/
theorem splitLines_joinLines :
    ∀ (ms : List Text), ms ≠ [] → (∀ l ∈ ms, '\n' ∉ l) →
      splitLines (joinLines ms) = ms := by
  intro ms
  induction ms with
  | nil => intro h; exact absurd rfl h
  | cons l rest ih =>
    intro _ hnl
    cases rest with
    | nil =>
      show splitLines (joinLines [l]) = [l]
      unfold splitLines
      rw [show joinLines [l] = l ++ [] by simp [joinLines],
        splitLinesAux_append l [] [] (hnl l (by simp))]
      simp [splitLinesAux]
    | cons m rest2 =>
      show splitLines (joinLines (l :: m :: rest2)) = l :: m :: rest2
      rw [joinLines_cons_cons]
      unfold splitLines
      rw [splitLinesAux_append l ('\n' :: joinLines (m :: rest2)) []
        (hnl l (by simp))]
      unfold splitLinesAux
      rw [if_pos rfl]
      have ihr := ih (by simp) (fun x hx => hnl x (by simp [hx]))
      unfold splitLines at ihr
      rw [ihr]
      simp

/- ----------------------------------------------------------------
Scan-step case analysis and invariants.
---------------------------------------------------------------- -/

/-- Helper: if the signature update leaves the flag clear, it was clear and
either the guard failed or no signature matched. -/
theorem sigUpdate_reached_false {st : ScanState} {t : Text}
    (h : (sigUpdate st t).reachedSignature = false) :
    st.reachedSignature = false := by
  unfold sigUpdate at h
  split at h
  · simp at h
  · exact h

/-- Helper: one scan step either keeps the content unchanged, or appends
exactly the current line; an appended line matches no quote pattern, is
non-blank when it is the first kept line, and matches no signature pattern
when it is not. -/
theorem scanStep_kept_cases (st : ScanState) (l : Text) :
    (scanStep st l).kept = st.kept ∨
    ((scanStep st l).kept = l :: st.kept ∧
      matchQuoteStart (pyStrip l) = false ∧
      (st.kept.isEmpty = true → (pyStrip l).isEmpty = false) ∧
      (st.kept.isEmpty = false → matchSig (pyStrip l) = false) ∧
      st.inQuote = false ∧ st.reachedSignature = false) := by
  unfold scanStep
  split
  · exact Or.inl rfl
  · rename_i hq
    split
    · exact Or.inl (sigUpdate_kept st _)
    · split
      · rename_i hguard
        split
        · exact Or.inl (sigUpdate_kept st _)
        · rename_i hskip
          right
          rw [Bool.and_eq_true] at hguard
          obtain ⟨hg1, hg2⟩ := hguard
          rw [Bool.not_eq_true'] at hg1 hg2
          rw [sigUpdate_inQuote] at hg1
          have hrs : st.reachedSignature = false := sigUpdate_reached_false hg2
          refine ⟨?_, by simpa using hq, ?_, ?_, hg1, hrs⟩
          · show l :: (sigUpdate st (pyStrip l)).kept = l :: st.kept
            rw [sigUpdate_kept]
          · intro hke
            rw [sigUpdate_kept, hke] at hskip
            simpa using hskip
          · intro hkne
            by_contra hsig
            rw [Bool.not_eq_false] at hsig
            have : (sigUpdate st (pyStrip l)).reachedSignature = true := by
              unfold sigUpdate
              rw [if_pos (by simp [hg1, hkne, hsig])]
            rw [this] at hg2
            simp at hg2
      · exact Or.inl (sigUpdate_kept st _)

/-- Helper: the kept lines after a full scan all come from the scanned lines
(plus whatever the state already held). -/
theorem foldl_scan_mem (P : Text → Prop) :
    ∀ (ls : List Text) (st : ScanState), (∀ k ∈ st.kept, P k) →
      (∀ l ∈ ls, P l) → ∀ k ∈ (ls.foldl scanStep st).kept, P k := by
  intro ls
  induction ls with
  | nil => intro st hst _ k hk; exact hst k hk
  | cons l ls ih =>
    intro st hst hls k hk
    simp only [List.foldl_cons] at hk
    refine ih (scanStep st l) ?_ (fun x hx => hls x (by simp [hx])) k hk
    intro x hx
    rcases scanStep_kept_cases st l with h | ⟨h, _⟩ <;> rw [h] at hx
    · exact hst x hx
    · rcases List.mem_cons.1 hx with h1 | h1
      · subst h1; exact hls x (by simp)
      · exact hst x h1

/-- Helper: every kept line is one of the scanned lines. -/
theorem scanAll_mem (lines : List Text) : ∀ k ∈ scanAll lines, k ∈ lines := by
  intro k hk
  unfold scanAll at hk
  rw [List.mem_reverse] at hk
  exact foldl_scan_mem (fun x => x ∈ lines) lines initScan (by simp [initScan])
    (fun l hl => hl) k hk

/-- Helper: one scan step preserves the kept-content invariant: no kept line
matches a quote pattern, the first kept line is non-blank, and no later kept
line matches a signature pattern. -/
theorem scanStep_kept_inv (st : ScanState) (l : Text)
    (h1 : ∀ k ∈ st.kept, matchQuoteStart (pyStrip k) = false)
    (h2 : ∀ k, st.kept.getLast? = some k → (pyStrip k).isEmpty = false)
    (h3 : ∀ k ∈ st.kept.dropLast, matchSig (pyStrip k) = false) :
    (∀ k ∈ (scanStep st l).kept, matchQuoteStart (pyStrip k) = false) ∧
    (∀ k, (scanStep st l).kept.getLast? = some k → (pyStrip k).isEmpty = false) ∧
    (∀ k ∈ (scanStep st l).kept.dropLast, matchSig (pyStrip k) = false) := by
  rcases scanStep_kept_cases st l with h | ⟨h, hq, hfirst, hsig, _, _⟩
  · rw [h]; exact ⟨h1, h2, h3⟩
  · rw [h]
    cases hk : st.kept with
    | nil =>
      refine ⟨?_, ?_, ?_⟩
      · intro k hkk; simp at hkk; subst hkk; exact hq
      · intro k hlast
        simp at hlast
        subst hlast
        exact hfirst (by rw [hk]; rfl)
      · simp
    | cons a as =>
      refine ⟨?_, ?_, ?_⟩
      · intro k hkk
        rcases List.mem_cons.1 hkk with hx | hx
        · subst hx; exact hq
        · exact h1 k (hk ▸ hx)
      · intro k hlast
        rw [List.getLast?_cons_cons] at hlast
        exact h2 k (hk ▸ hlast)
      · intro k hkk
        rw [show (l :: a :: as).dropLast = l :: (a :: as).dropLast from rfl] at hkk
        rcases List.mem_cons.1 hkk with hx | hx
        · subst hx; exact hsig (by rw [hk]; rfl)
        · exact h3 k (hk ▸ hx)

/-- Helper: the kept-content invariant holds after scanning any line list. -/
theorem foldl_scan_inv (ls : List Text) :
    ∀ st : ScanState,
      (∀ k ∈ st.kept, matchQuoteStart (pyStrip k) = false) →
      (∀ k, st.kept.getLast? = some k → (pyStrip k).isEmpty = false) →
      (∀ k ∈ st.kept.dropLast, matchSig (pyStrip k) = false) →
      (∀ k ∈ (ls.foldl scanStep st).kept, matchQuoteStart (pyStrip k) = false) ∧
      (∀ k, (ls.foldl scanStep st).kept.getLast? = some k →
        (pyStrip k).isEmpty = false) ∧
      (∀ k ∈ (ls.foldl scanStep st).kept.dropLast, matchSig (pyStrip k) = false) := by
  induction ls with
  | nil => intro st a b c; exact ⟨a, b, c⟩
  | cons l ls ih =>
    intro st a b c
    obtain ⟨a2, b2, c2⟩ := scanStep_kept_inv st l a b c
    simpa only [List.foldl_cons] using ih (scanStep st l) a2 b2 c2

/-- Helper: the kept lines of a scan match no quote pattern, start with a
non-blank line, and match no signature pattern after the first. -/
theorem scanAll_inv (lines : List Text) :
    (∀ k ∈ scanAll lines, matchQuoteStart (pyStrip k) = false) ∧
    (∀ k t, scanAll lines = k :: t → (pyStrip k).isEmpty = false) ∧
    (∀ k ∈ (scanAll lines).tail, matchSig (pyStrip k) = false) := by
  obtain ⟨a, b, c⟩ := foldl_scan_inv lines initScan (by simp [initScan])
    (by simp [initScan]) (by simp [initScan])
  refine ⟨?_, ?_, ?_⟩
  · intro k hk
    exact a k (List.mem_reverse.1 hk)
  · intro k t heq
    apply b
    have hh : (lines.foldl scanStep initScan).kept.reverse.head? = some k := by
      unfold scanAll at heq
      rw [heq]; rfl
    rwa [List.head?_reverse] at hh
  · intro k hk
    apply c
    unfold scanAll at hk
    rw [List.tail_reverse] at hk
    exact List.mem_reverse.1 hk

/-- Helper: the special comma form of the attribution line implies the
general quote-start pattern. -/
theorem matchOnCommaWrote_imp {t : Text} (h : matchOnCommaWrote t = true) :
    matchQuoteStart t = true := by
  unfold matchOnCommaWrote at h
  rw [Bool.and_eq_true, Bool.and_eq_true] at h
  obtain ⟨⟨hp, hs⟩, hany⟩ := h
  rw [List.any_eq_true] at hany
  obtain ⟨i, _, hcond⟩ := hany
  rw [Bool.and_eq_true, Bool.and_eq_true, Bool.and_eq_true] at hcond
  have h4 : 4 ≤ i := of_decide_eq_true hcond.1.1.1
  have h10 : i + 10 ≤ t.length := of_decide_eq_true hcond.1.1.2
  have h11 : quoteOnWrote t = true := by
    unfold quoteOnWrote
    rw [hp, hs]
    simp only [Bool.true_and]
    exact decide_eq_true (by omega)
  unfold matchQuoteStart
  rw [h11]
  simp

/-- Helper: a failed signature match leaves the state unchanged. -/
theorem sigUpdate_of_sig_false {st : ScanState} {t : Text}
    (h : matchSig t = false) : sigUpdate st t = st := by
  unfold sigUpdate
  rw [if_neg (by simp [h])]

/-- Helper: with content already kept and no marker lines ahead, the scan
keeps every remaining line. -/
theorem foldl_scan_keep_all (ls : List Text)
    (hm : ∀ l ∈ ls, matchQuoteStart (pyStrip l) = false ∧
      matchSig (pyStrip l) = false) :
    ∀ st : ScanState, st.inQuote = false → st.reachedSignature = false →
      st.kept ≠ [] →
      (ls.foldl scanStep st).kept = ls.reverse ++ st.kept ∧
      (ls.foldl scanStep st).inQuote = false ∧
      (ls.foldl scanStep st).reachedSignature = false := by
  induction ls with
  | nil => intro st h1 h2 _; exact ⟨by simp, h1, h2⟩
  | cons l ls ih =>
    intro st h1 h2 h3
    have hq := (hm l (by simp)).1
    have hs := (hm l (by simp)).2
    have hoc : matchOnCommaWrote (pyStrip l) = false := by
      by_contra hx
      rw [Bool.not_eq_false] at hx
      rw [matchOnCommaWrote_imp hx] at hq
      simp at hq
    have hke : st.kept.isEmpty = false := by
      simp [List.isEmpty_iff, h3]
    have hstep : scanStep st l = { st with kept := l :: st.kept } := by
      unfold scanStep
      rw [if_neg (by simp [hq]), sigUpdate_of_sig_false hs, if_neg (by simp [hoc]),
        if_pos (by simp [h1, h2]), if_neg (by simp [hke])]
    rw [List.foldl_cons, hstep]
    obtain ⟨k1, k2, k3⟩ := ih (fun x hx => hm x (by simp [hx]))
      { st with kept := l :: st.kept } h1 h2 (by simp)
    refine ⟨?_, k2, k3⟩
    rw [k1]
    simp

/-- Helper: with no content kept yet and no marker lines ahead, the scan
keeps exactly the lines after the leading blank lines. -/
theorem foldl_scan_no_marks (ls : List Text)
    (hm : ∀ l ∈ ls, matchQuoteStart (pyStrip l) = false ∧
      matchSig (pyStrip l) = false) :
    ∀ st : ScanState, st.inQuote = false → st.reachedSignature = false →
      st.kept = [] →
      (ls.foldl scanStep st).kept =
        (ls.dropWhile (fun l => (pyStrip l).isEmpty)).reverse := by
  induction ls with
  | nil => intro st _ _ hk; simpa using hk
  | cons l ls ih =>
    intro st h1 h2 h3
    have hq := (hm l (by simp)).1
    have hs := (hm l (by simp)).2
    have hoc : matchOnCommaWrote (pyStrip l) = false := by
      by_contra hx
      rw [Bool.not_eq_false] at hx
      rw [matchOnCommaWrote_imp hx] at hq
      simp at hq
    have hke : st.kept.isEmpty = true := by simp [List.isEmpty_iff, h3]
    by_cases hbl : (pyStrip l).isEmpty = true
    · have hstep : scanStep st l = st := by
        unfold scanStep
        rw [if_neg (by simp [hq]), sigUpdate_of_sig_false hs,
          if_neg (by simp [hoc]), if_pos (by simp [h1, h2]),
          if_pos (by simp [hke, hbl])]
      rw [List.foldl_cons, hstep, ih (fun x hx => hm x (by simp [hx])) st h1 h2 h3,
        List.dropWhile_cons, hbl]
      simp
    · have hstep : scanStep st l = { st with kept := [l] } := by
        unfold scanStep
        rw [if_neg (by simp [hq]), sigUpdate_of_sig_false hs,
          if_neg (by simp [hoc]), if_pos (by simp [h1, h2]),
          if_neg (by simp [hbl]), h3]
      rw [List.foldl_cons, hstep]
      obtain ⟨k1, _, _⟩ := foldl_scan_keep_all ls
        (fun x hx => hm x (by simp [hx])) { st with kept := [l] } h1 h2 (by simp)
      have hbl2 : (pyStrip l).isEmpty = false := by simpa using hbl
      rw [k1, List.dropWhile_cons, hbl2]
      simp

/-- Helper: with no marker lines at all, the scan keeps exactly the lines
after the leading blank lines. -/
theorem scanAll_no_marks (lines : List Text)
    (hm : ∀ l ∈ lines, matchQuoteStart (pyStrip l) = false ∧
      matchSig (pyStrip l) = false) :
    scanAll lines = lines.dropWhile (fun l => (pyStrip l).isEmpty) := by
  unfold scanAll
  rw [foldl_scan_no_marks lines hm initScan rfl rfl rfl, List.reverse_reverse]

/-- Claim C7 (amended): on a non-empty body with no quote or signature
marker lines, the scan keeps every line after the leading blank lines; the
extractor returns the raw body unchanged exactly when no lines were kept
(fail-open), and otherwise the joined kept lines with trailing device
boilerplate removed and surrounding whitespace stripped — not always the
input verbatim. -/
theorem extract_no_marks (body d : Text) (hb : body ≠ [])
    (h : ∀ l ∈ splitLines body,
      matchQuoteStart (pyStrip l) = false ∧ matchSig (pyStrip l) = false) :
    scanAll (splitLines body) =
      (splitLines body).dropWhile (fun l => (pyStrip l).isEmpty) ∧
    extract_your_content body d =
      (if ((splitLines body).dropWhile (fun l => (pyStrip l).isEmpty)).isEmpty then
        body
      else postProcess (joinLines
        ((splitLines body).dropWhile (fun l => (pyStrip l).isEmpty)))) := by
  have hscan := scanAll_no_marks (splitLines body) h
  refine ⟨hscan, ?_⟩
  have hlines : (splitLines body).isEmpty = false := by
    simp [List.isEmpty_iff, splitLines, splitLinesAux_ne_nil]
  unfold extract_your_content
  rw [if_neg (by simp [List.isEmpty_iff, hb]), hscan]
  by_cases hdw :
      ((splitLines body).dropWhile (fun l => (pyStrip l).isEmpty)).isEmpty = true
  · rw [if_pos (by simp [hdw, hlines]), if_pos hdw]
  · rw [if_neg (by simp [hdw]), if_neg hdw]

/-- Witness for the amended C7 at a marker-free two-line body. -/
theorem extract_no_marks_witness :
    extract_your_content "hi\nthere".data [] = "hi\nthere".data := by
  have h := extract_no_marks "hi\nthere".data [] (by decide) (by decide)
  rw [h.2]
  decide

/-- Counterexample to C7 as stated: a body with a trailing space matches no
quote or signature pattern, yet the extractor strips it, so the input is not
returned unchanged. -/
theorem extract_unchanged_cex :
    (∀ l ∈ splitLines "hello ".data,
      matchQuoteStart (pyStrip l) = false ∧ matchSig (pyStrip l) = false) ∧
    "hello ".data ≠ [] ∧
    extract_your_content "hello ".data [] ≠ "hello ".data := by
  decide

/- ----------------------------------------------------------------
Substitution lemmas (claims C9, C10).
---------------------------------------------------------------- -/

/-- Helper: the found cut position indeed starts a suffix match. -/
theorem findCut_spec (lits : List Text) :
    ∀ (s : Text) (p : Nat), findCut lits s = some p →
      suffixMatchAt lits (s.drop p) = true := by
  intro s
  induction s with
  | nil => intro p h; simp [findCut] at h
  | cons c cs ih =>
    intro p h
    unfold findCut at h
    split at h
    · rename_i hs
      cases h
      simpa using hs
    · cases hf : findCut lits cs with
      | none => rw [hf] at h; simp at h
      | some q =>
        rw [hf] at h
        simp at h
        subst h
        rw [List.drop_succ_cons]
        exact ih q hf

/-- Helper: a suffix match starts at a newline. -/
theorem suffixMatchAt_head {lits : List Text} {s : Text}
    (h : suffixMatchAt lits s = true) : s.head? = some '\n' := by
  unfold suffixMatchAt at h
  split at h
  · rfl
  · simp at h

/-- Helper: a newline-free prefix survives each substitution, because any
removed suffix begins at a newline. -/
theorem subRemove_keeps_head (lits : List Text) {k s : Text}
    (hnl : '\n' ∉ k) (hpre : ∃ t, s = k ++ t) :
    ∃ t2, subRemove lits s = k ++ t2 := by
  obtain ⟨t, rfl⟩ := hpre
  unfold subRemove
  cases hf : findCut lits (k ++ t) with
  | none => exact ⟨t, rfl⟩
  | some p =>
    have hhead := suffixMatchAt_head (findCut_spec lits (k ++ t) p hf)
    have hp : k.length ≤ p := by
      by_contra hlt
      push_neg at hlt
      rw [List.drop_append_of_le_length (le_of_lt hlt)] at hhead
      cases hd : k.drop p with
      | nil =>
        have hlen := congrArg List.length hd
        simp [List.length_drop] at hlen
        omega
      | cons c cs =>
        rw [hd] at hhead
        simp at hhead
        apply hnl
        have hcm : c ∈ k.drop p := by rw [hd]; simp
        rw [hhead] at hcm
        exact List.mem_of_mem_drop hcm
    refine ⟨t.take (p - k.length), ?_⟩
    show (k ++ t).take p = k ++ t.take (p - k.length)
    rw [List.take_append_eq_append_take, List.take_of_length_le hp]

/-- Helper: an all-whitespace string strips to nothing. -/
theorem pyStrip_nil_of_all_space {l : Text} (h : ∀ c ∈ l, pySpace c = true) :
    pyStrip l = [] := by
  have hl : ltrim l = [] := List.dropWhile_eq_nil_iff.2 h
  unfold pyStrip
  rw [hl]
  rfl

/-- Claim C10: a body containing a non-whitespace character extracts to
output containing a non-whitespace character — the extractor never reduces a
non-blank body to blank output, so the empty-extraction skip branch of the
async fetch loop is reachable only for blank bodies. -/
theorem extract_preserves_nonblank (body d : Text)
    (h : ∃ c ∈ body, pySpace c = false) :
    ∃ c ∈ extract_your_content body d, pySpace c = false := by
  obtain ⟨c0, hc0, hsp0⟩ := h
  have hbody : body.isEmpty = false := by
    cases body
    · simp at hc0
    · rfl
  have hlines : (splitLines body).isEmpty = false := by
    simp [List.isEmpty_iff, splitLines, splitLinesAux_ne_nil]
  unfold extract_your_content
  rw [if_neg (by simp [hbody])]
  by_cases hkept : (scanAll (splitLines body)).isEmpty = true
  · rw [if_pos (by simp [hkept, hlines])]
    exact ⟨c0, hc0, hsp0⟩
  · rw [if_neg (by simp [hkept])]
    cases hk : scanAll (splitLines body) with
    | nil => rw [hk] at hkept; simp at hkept
    | cons k0 ks =>
      have hk0bl : (pyStrip k0).isEmpty = false :=
        (scanAll_inv (splitLines body)).2.1 k0 ks hk
      have hex : ∃ c ∈ k0, pySpace c = false := by
        by_contra hall
        push_neg at hall
        have : pyStrip k0 = [] := by
          apply pyStrip_nil_of_all_space
          intro c hc
          have := hall c hc
          simpa using this
        rw [this] at hk0bl
        simp at hk0bl
      obtain ⟨c1, hc1, hsp1⟩ := hex
      have hk0mem : k0 ∈ splitLines body :=
        scanAll_mem (splitLines body) k0 (by rw [hk]; simp)
      have hk0nl : '\n' ∉ k0 := splitLines_no_newline body k0 hk0mem
      have hjoin : ∃ t, joinLines (k0 :: ks) = k0 ++ t := by
        cases ks with
        | nil => exact ⟨[], by simp [joinLines]⟩
        | cons k1 ks2 => exact ⟨'\n' :: joinLines (k1 :: ks2), joinLines_cons_cons _ _ _⟩
      obtain ⟨t1, h1⟩ := subRemove_keeps_head [iPhoneSig] hk0nl hjoin
      obtain ⟨t2, h2⟩ := subRemove_keeps_head [androidSig] hk0nl ⟨t1, h1⟩
      obtain ⟨t3, h3⟩ :=
        subRemove_keeps_head [outlookIOS, outlookAndroid] hk0nl ⟨t2, h2⟩
      unfold postProcess
      rw [h3]
      exact ⟨c1, mem_pyStrip (by simp [hc1]) hsp1, hsp1⟩

/-- Witness for C10 at a concrete non-blank body. -/
theorem extract_preserves_nonblank_witness :
    ∃ c ∈ extract_your_content "hi".data [], pySpace c = false :=
  extract_preserves_nonblank "hi".data [] ⟨'h', by decide, by decide⟩

/- ----------------------------------------------------------------
No-op substitution lemmas (claim C9).
---------------------------------------------------------------- -/

/-- Helper: unpacking well-formedness of a removal literal. -/
theorem litOK_spec {lit : Text} (h : litOK lit = true) :
    lit ≠ [] ∧ '\n' ∉ lit ∧
    (∀ c t, lit = c :: t → pySpace c = false) ∧
    (∀ g, lit.getLast? = some g → pySpace g = false) := by
  unfold litOK at h
  rw [Bool.and_eq_true, Bool.and_eq_true, Bool.and_eq_true] at h
  obtain ⟨⟨⟨h1, h2⟩, h3⟩, h4⟩ := h
  rw [Bool.not_eq_true'] at h1 h2 h3 h4
  refine ⟨by simpa [List.isEmpty_iff] using h1, by simpa using h2, ?_, ?_⟩
  · intro c t heq
    rw [heq] at h3
    simpa using h3
  · intro g hg
    rw [List.getLastD_eq_getLast?, hg] at h4
    simpa using h4

/-- Helper: a list whose head analysis shows no leading whitespace is fixed
by left trim. -/
theorem ltrim_of_head_not_space {l : Text}
    (h : ∀ c t2, l = c :: t2 → pySpace c = false) : ltrim l = l := by
  cases l with
  | nil => rfl
  | cons c t2 =>
    rw [ltrim_cons, h c t2 rfl]
    simp

/-- Helper: any member of the part kept by dropWhile is a member of the
original list. -/
theorem mem_of_mem_dropWhile {α : Type} {p : α → Bool} {l : List α} {x : α}
    (h : x ∈ l.dropWhile p) : x ∈ l :=
  (List.dropWhile_sublist p).subset h

/-- Helper: a well-formed literal followed by whitespace strips back to the
literal. -/
theorem pyStrip_lit_append {lit t : Text} (hok : litOK lit = true)
    (hsp : ∀ c ∈ t, pySpace c = true) : pyStrip (lit ++ t) = lit := by
  obtain ⟨hne, _, hhead, hlast⟩ := litOK_spec hok
  have hlt : ltrim (lit ++ t) = lit ++ t := by
    apply ltrim_of_head_not_space
    intro c t2 heq
    cases hlit : lit with
    | nil => exact absurd hlit hne
    | cons c0 l2 =>
      rw [hlit, List.cons_append] at heq
      injection heq with h1 _
      rw [← h1]
      exact hhead c0 l2 hlit
  have hts : t.reverse.dropWhile pySpace = [] := by
    rw [List.dropWhile_eq_nil_iff]
    intro x hx
    exact hsp x (List.mem_reverse.1 hx)
  unfold pyStrip
  rw [hlt]
  show ((lit ++ t).reverse.dropWhile pySpace).reverse = lit
  rw [List.reverse_append, List.dropWhile_append, hts]
  simp only [List.isEmpty_nil, if_true]
  cases hr : lit.reverse with
  | nil =>
    rw [List.reverse_eq_nil_iff] at hr
    exact absurd hr hne
  | cons g gs =>
    have hg : lit.getLast? = some g := by
      rw [← List.head?_reverse, hr]
      rfl
    rw [List.dropWhile_cons, hlast g hg]
    simp only [Bool.false_eq_true, if_false]
    rw [← hr, List.reverse_reverse]

/-- Helper: dropping the leading newline run of a join drops the leading
empty lines. -/
theorem dropNewlines_join :
    ∀ (ms : List Text), (∀ l ∈ ms, '\n' ∉ l) →
      (joinLines ms).dropWhile (fun c => c = '\n') =
        joinLines (ms.dropWhile (fun l => l.isEmpty)) := by
  intro ms
  induction ms with
  | nil => intro _; rfl
  | cons l rest ih =>
    intro hnl
    by_cases hl : l = []
    · subst hl
      cases rest with
      | nil => rfl
      | cons m rest2 =>
        rw [joinLines_cons_cons]
        have h2 : (([] : Text) ++ '\n' :: joinLines (m :: rest2)).dropWhile
            (fun c => c = '\n') =
            (joinLines (m :: rest2)).dropWhile (fun c => c = '\n') := by
          rw [List.nil_append, List.dropWhile_cons]
          simp
        rw [h2, ih (fun x hx => hnl x (by simp [hx]))]
        have h3 : (([] : Text) :: m :: rest2).dropWhile (fun l => l.isEmpty) =
            (m :: rest2).dropWhile (fun l => l.isEmpty) := by
          rw [List.dropWhile_cons]
          simp
        rw [h3]
    · have hl2 : ∃ c l2, l = c :: l2 := by
        cases l with
        | nil => exact absurd rfl hl
        | cons c l2 => exact ⟨c, l2, rfl⟩
      obtain ⟨c, l2, rfl⟩ := hl2
      have hc : ¬(c = '\n') := fun hcc => hnl (c :: l2) (by simp) (by rw [hcc]; simp)
      have h3 : ((c :: l2) :: rest).dropWhile (fun l => l.isEmpty) =
          (c :: l2) :: rest := by
        rw [List.dropWhile_cons]
        simp
      rw [h3]
      cases rest with
      | nil =>
        have h4 : joinLines [c :: l2] = c :: l2 := rfl
        rw [h4, List.dropWhile_cons]
        simp [hc]
      | cons m rest2 =>
        have h4 : joinLines ((c :: l2) :: m :: rest2) =
            c :: (l2 ++ '\n' :: joinLines (m :: rest2)) := by
          rw [joinLines_cons_cons]
          rfl
        rw [h4, List.dropWhile_cons]
        simp [hc]

/-- Helper: a well-formed literal cannot match at a line start when no line
strips to it. -/
theorem lit_prefix_join_false {lit : Text} (ms : List Text)
    (hok : litOK lit = true) (hnl : ∀ l ∈ ms, '\n' ∉ l)
    (hnb : ∀ l ∈ ms, pyStrip l ≠ lit)
    (hpre : lit.isPrefixOf (joinLines ms) = true)
    (hsp : ((joinLines ms).drop lit.length).all pySpace = true) : False := by
  obtain ⟨hne, hlitnl, _, _⟩ := litOK_spec hok
  obtain ⟨u, hu⟩ := (prefixOf_iff lit (joinLines ms)).1 hpre
  cases ms with
  | nil =>
    simp [joinLines] at hu
    exact hne hu.1
  | cons l rest =>
    have hjoin : ∃ tail : Text, joinLines (l :: rest) = l ++ tail ∧
        (tail = [] ∨ ∃ J, tail = '\n' :: J) := by
      cases rest with
      | nil => exact ⟨[], by simp [joinLines], Or.inl rfl⟩
      | cons m rest2 =>
        exact ⟨'\n' :: joinLines (m :: rest2), joinLines_cons_cons _ _ _,
          Or.inr ⟨joinLines (m :: rest2), rfl⟩⟩
    obtain ⟨tail, htail, hshape⟩ := hjoin
    by_cases hlen : lit.length ≤ l.length
    · have htake : l.take lit.length = lit := by
        have h1 : (joinLines (l :: rest)).take lit.length = lit := by
          rw [hu, List.take_left]
        rw [htail, List.take_append_eq_append_take,
          Nat.sub_eq_zero_of_le hlen] at h1
        simpa using h1
      have hldec : l = lit ++ l.drop lit.length := by
        conv_lhs => rw [← List.take_append_drop lit.length l]
        rw [htake]
      have hwsp : ∀ c ∈ l.drop lit.length, pySpace c = true := by
        intro c hc
        have h2 : ((joinLines (l :: rest)).drop lit.length) =
            l.drop lit.length ++ tail := by
          rw [htail, List.drop_append_of_le_length hlen]
        rw [h2, List.all_append, Bool.and_eq_true] at hsp
        exact List.all_eq_true.1 hsp.1 c hc
      apply hnb l (by simp)
      rw [hldec]
      exact pyStrip_lit_append hok hwsp
    · push_neg at hlen
      rcases hshape with hnil | ⟨J, hJ⟩
      · rw [hnil, List.append_nil] at htail
        rw [htail] at hu
        have := congrArg List.length hu
        simp at this
        omega
      · apply hlitnl
        have h1 : (joinLines (l :: rest)).take lit.length = lit := by
          rw [hu, List.take_left]
        rw [htail, hJ, List.take_append_eq_append_take] at h1
        have h2 : ('\n' :: J).take (lit.length - l.length) =
            '\n' :: J.take (lit.length - l.length - 1) := by
          cases hd : lit.length - l.length with
          | zero => omega
          | succ n => simp [hd]
        rw [h2] at h1
        rw [← h1]
        exact List.mem_append_right _ (by simp)

/-- Helper: a suffix of a concatenation is a suffix of the second part or
extends it by a nonempty suffix of the first. -/
theorem append_suffix_split {α : Type} :
    ∀ (a b s u : List α), u ++ s = a ++ b →
      (∃ u2, u2 ++ s = b) ∨ ∃ a2 u2, s = a2 ++ b ∧ u2 ++ a2 = a ∧ a2 ≠ [] := by
  intro a
  induction a with
  | nil =>
    intro b s u h
    exact Or.inl ⟨u, by simpa using h⟩
  | cons x a2 ih =>
    intro b s u h
    cases u with
    | nil =>
      right
      refine ⟨x :: a2, [], ?_, rfl, by simp⟩
      simpa using h
    | cons y u2 =>
      rw [List.cons_append, List.cons_append] at h
      injection h with h1 h2
      rcases ih b s u2 h2 with hl | ⟨a3, u3, ha, hb, hc⟩
      · exact Or.inl hl
      · exact Or.inr ⟨a3, y :: u3, ha, by rw [List.cons_append, hb, h1], hc⟩

/-- Helper: unfolding the suffix matcher at a leading newline. -/
theorem suffixMatchAt_cons_newline (lits : List Text) (v : Text) :
    suffixMatchAt lits ('\n' :: v) =
      lits.any (fun lit => lit.isPrefixOf (v.dropWhile (fun c => c = '\n')) &&
        ((v.dropWhile (fun c => c = '\n')).drop lit.length).all pySpace) := by
  show lits.any (fun lit =>
      lit.isPrefixOf (('\n' :: v).dropWhile (fun c => c = '\n')) &&
      ((('\n' :: v).dropWhile (fun c => c = '\n')).drop lit.length).all pySpace) = _
  rw [show ('\n' :: v).dropWhile (fun c => c = '\n') =
      v.dropWhile (fun c => c = '\n') from by rw [List.dropWhile_cons]; simp]

/-- Helper: no suffix of a boilerplate-free join matches a removal pattern. -/
theorem suffixMatch_join_false {lits : List Text} (ms : List Text)
    (hok : ∀ lit ∈ lits, litOK lit = true) (hnl : ∀ l ∈ ms, '\n' ∉ l)
    (hnb : ∀ l ∈ ms, ∀ lit ∈ lits, pyStrip l ≠ lit) :
    ∀ s : Text, (∃ u, u ++ s = joinLines ms) → suffixMatchAt lits s = false := by
  induction ms with
  | nil =>
    intro s hs
    obtain ⟨u, hu⟩ := hs
    have hs0 : s = [] := by
      have h2 : u ++ s = [] := by simpa [joinLines] using hu
      exact (List.append_eq_nil.1 h2).2
    rw [hs0]
    rfl
  | cons l rest ih =>
    intro s hs
    by_contra hx
    rw [Bool.not_eq_false] at hx
    have hhead := suffixMatchAt_head hx
    obtain ⟨u, hu⟩ := hs
    cases hsc : s with
    | nil => rw [hsc] at hhead; simp at hhead
    | cons c v =>
      rw [hsc] at hhead
      simp at hhead
      subst hhead
      rw [hsc] at hu hx
      cases rest with
      | nil =>
        have hmem : '\n' ∈ l := by
          have h2 : joinLines [l] = l := by simp [joinLines]
          rw [h2] at hu
          rw [← hu]
          simp
        exact hnl l (by simp) hmem
      | cons m rest2 =>
        rw [joinLines_cons_cons] at hu
        rcases append_suffix_split l ('\n' :: joinLines (m :: rest2))
            ('\n' :: v) u hu with ⟨u2, hu2⟩ | ⟨a2, u2, ha, hb, hc⟩
        · cases u2 with
          | nil =>
            simp at hu2
            subst hu2
            rw [suffixMatchAt_cons_newline] at hx
            rw [dropNewlines_join (m :: rest2)
              (fun x hxm => hnl x (by simp [hxm]))] at hx
            rw [List.any_eq_true] at hx
            obtain ⟨lit, hlit, hcond⟩ := hx
            rw [Bool.and_eq_true] at hcond
            refine lit_prefix_join_false
              ((m :: rest2).dropWhile (fun l => l.isEmpty)) (hok lit hlit)
              ?_ ?_ hcond.1 hcond.2
            · intro x hxm
              exact hnl x (by simp [mem_of_mem_dropWhile hxm])
            · intro x hxm
              exact hnb x (by simp [mem_of_mem_dropWhile hxm]) lit hlit
          | cons y u3 =>
            injection hu2 with _ hu3
            have := ih (fun x hxm => hnl x (by simp [hxm]))
              (fun x hxm => hnb x (by simp [hxm])) ('\n' :: v) ⟨u3, hu3⟩
            rw [this] at hx
            simp at hx
        · cases a2 with
          | nil => exact hc rfl
          | cons z a3 =>
            injection ha with hz _
            apply hnl l (by simp)
            rw [← hb, ← hz]
            simp

/-- Helper: when no suffix matches, no cut is found. -/
theorem findCut_none_of (lits : List Text) :
    ∀ (s0 : Text), (∀ s, (∃ u, u ++ s = s0) → suffixMatchAt lits s = false) →
      findCut lits s0 = none := by
  intro s0
  induction s0 with
  | nil => intro _; rfl
  | cons c cs ih =>
    intro h
    unfold findCut
    rw [h (c :: cs) ⟨[], rfl⟩]
    simp only [Bool.false_eq_true, if_false]
    rw [ih (fun s hs => h s (by
      obtain ⟨u, hu⟩ := hs
      exact ⟨c :: u, by rw [List.cons_append, hu]⟩))]
    rfl

/-- Helper: the substitution is a no-op on a join none of whose lines strips
to a removal literal. -/
theorem subRemove_noop {lits : List Text} (ms : List Text)
    (hok : ∀ lit ∈ lits, litOK lit = true) (hnl : ∀ l ∈ ms, '\n' ∉ l)
    (hnb : ∀ l ∈ ms, ∀ lit ∈ lits, pyStrip l ≠ lit) :
    subRemove lits (joinLines ms) = joinLines ms := by
  unfold subRemove
  rw [findCut_none_of lits (joinLines ms) (suffixMatch_join_false ms hok hnl hnb)]

/-- Helper: the whole postprocessing is a plain strip on a join none of whose
lines strips to device boilerplate. -/
theorem postProcess_noop (ms : List Text) (hnl : ∀ l ∈ ms, '\n' ∉ l)
    (hnb : ∀ l ∈ ms, ∀ lit ∈ boilerLits, pyStrip l ≠ lit) :
    postProcess (joinLines ms) = pyStrip (joinLines ms) := by
  unfold postProcess
  rw [subRemove_noop ms (by decide)
      (fun l hl => hnl l hl)
      (fun l hl lit hlit => by
        have : lit ∈ boilerLits := by
          simp only [boilerLits]
          simp at hlit
          simp [hlit]
        exact hnb l hl lit this),
    subRemove_noop ms (by decide) (fun l hl => hnl l hl)
      (fun l hl lit hlit => by
        have : lit ∈ boilerLits := by
          simp only [boilerLits]
          simp at hlit
          simp [hlit]
        exact hnb l hl lit this),
    subRemove_noop ms (by decide) (fun l hl => hnl l hl)
      (fun l hl lit hlit => by
        have : lit ∈ boilerLits := by
          simp only [boilerLits]
          simp at hlit
          rcases hlit with h | h <;> simp [h]
        exact hnb l hl lit this)]

/- ----------------------------------------------------------------
How stripping acts on the line decomposition (claim C9).
---------------------------------------------------------------- -/

/-- Helper: a left trim of a join with a non-blank first line trims only the
first line. -/
theorem ltrim_join (k0 : Text) (ks : List Text) (h : ltrim k0 ≠ []) :
    ltrim (joinLines (k0 :: ks)) = joinLines (ltrim k0 :: ks) := by
  have hstep : ∀ (tail : Text), ltrim (k0 ++ tail) = ltrim k0 ++ tail := by
    intro tail
    unfold ltrim
    rw [List.dropWhile_append]
    rw [if_neg (show ¬((List.dropWhile pySpace k0).isEmpty = true) from
      fun hcontra => h (List.isEmpty_iff.1 hcontra))]
  cases ks with
  | nil =>
    show ltrim (joinLines [k0]) = joinLines [ltrim k0]
    have h1 : joinLines [k0] = k0 ++ [] := by simp [joinLines]
    have h2 : joinLines [ltrim k0] = ltrim k0 ++ [] := by simp [joinLines]
    rw [h1, h2, hstep]
  | cons m ks2 =>
    rw [joinLines_cons_cons, joinLines_cons_cons, hstep]

/-- Helper: a right trim distributes over a concatenation. -/
theorem rtrim_append (a b : Text) :
    rtrim (a ++ b) = if (rtrim b).isEmpty then rtrim a else a ++ rtrim b := by
  unfold rtrim
  rw [List.reverse_append, List.dropWhile_append]
  by_cases h : (b.reverse.dropWhile pySpace).isEmpty = true
  · rw [if_pos h, if_pos (by simpa [List.isEmpty_iff] using h)]
  · rw [if_neg h, if_neg (by
      simp only [List.isEmpty_iff] at h ⊢
      simpa using h)]
    rw [List.reverse_append, List.reverse_reverse]

/-- Helper: one unfolding step of the right-strip accumulator. -/
theorem rstripAux_cons (m : Text) (rest : List Text) :
    rstripAux (m :: rest) =
      if (rtrim m).isEmpty then rstripAux rest else rtrim m :: rest := rfl

/-- Helper: a right trim of a join removes the trailing blank lines and
right-trims the last survivor. -/
theorem rtrim_join : ∀ (ms : List Text),
    rtrim (joinLines ms) = joinLines (rstripLines ms) := by
  intro ms
  induction ms using List.reverseRecOn with
  | nil => rfl
  | append_singleton ms m ih =>
    rw [joinLines_append_singleton]
    cases hms : ms with
    | nil =>
      simp only [List.isEmpty_nil, if_true]
      show rtrim (joinLines [] ++ [] ++ m) = _
      simp only [joinLines, List.nil_append]
      unfold rstripLines rstripAux
      simp only [List.nil_append, List.reverse_cons, List.reverse_nil]
      by_cases he : (rtrim m).isEmpty = true
      · rw [if_pos he]
        have : rtrim m = [] := List.isEmpty_iff.1 he
        simp [rstripAux, this, joinLines]
      · rw [if_neg he]
        simp [joinLines]
    | cons p ps =>
      rw [← hms]
      have hne : ms.isEmpty = false := by rw [hms]; rfl
      rw [hne]
      simp only [Bool.false_eq_true, if_false]
      rw [List.append_assoc, rtrim_append, List.singleton_append, rtrim_cons]
      by_cases he : (rtrim m).isEmpty = true
      · have hm0 : rtrim m = [] := List.isEmpty_iff.1 he
        rw [if_pos he]
        simp only [show pySpace '\n' = true from rfl, if_true, List.isEmpty_nil,
          if_true]
        rw [ih]
        have : rstripLines (ms ++ [m]) = rstripLines ms := by
          unfold rstripLines
          rw [List.reverse_append]
          show (rstripAux (m :: ms.reverse)).reverse = _
          rw [rstripAux_cons, if_pos he]
        rw [this]
      · rw [if_neg he]
        have h2 : ('\n' :: rtrim m).isEmpty = false := rfl
        rw [h2]
        simp only [Bool.false_eq_true, if_false]
        have : rstripLines (ms ++ [m]) = ms ++ [rtrim m] := by
          unfold rstripLines
          rw [List.reverse_append]
          show (rstripAux (m :: ms.reverse)).reverse = _
          rw [rstripAux_cons, if_neg he]
          simp
        rw [this, joinLines_append_singleton, hne]
        simp

/-- Helper: the right-strip of a line list is empty or a prefix of the list
with its last element right-trimmed. -/
theorem rstripLines_shape : ∀ (ms : List Text),
    rstripLines ms = [] ∨
    ∃ P m w, ms = P ++ [m] ++ w ∧ rstripLines ms = P ++ [rtrim m] := by
  have haux : ∀ (rv : List Text), rstripAux rv = [] ∨
      ∃ m rest w, rv = w ++ m :: rest ∧ rstripAux rv = rtrim m :: rest := by
    intro rv
    induction rv with
    | nil => exact Or.inl rfl
    | cons m rest ih =>
      by_cases he : (rtrim m).isEmpty = true
      · have h1 : rstripAux (m :: rest) = rstripAux rest := by
          rw [rstripAux_cons, if_pos he]
        rcases ih with h | ⟨m2, rest2, w, hw, heq⟩
        · exact Or.inl (h1.trans h)
        · exact Or.inr ⟨m2, rest2, m :: w, by rw [hw]; rfl, h1.trans heq⟩
      · right
        refine ⟨m, rest, [], rfl, ?_⟩
        rw [rstripAux_cons, if_neg he]
  intro ms
  rcases haux ms.reverse with h | ⟨m, rest, w, hw, heq⟩
  · left
    unfold rstripLines
    rw [h]
    rfl
  · right
    refine ⟨rest.reverse, m, w.reverse, ?_, ?_⟩
    · have := congrArg List.reverse hw
      rw [List.reverse_reverse] at this
      rw [this]
      simp
    · unfold rstripLines
      rw [heq]
      simp


/-- Helper: members of a takeWhile satisfy the predicate. -/
theorem mem_takeWhile_pred {α : Type} (p : α → Bool) :
    ∀ (l : List α) (x : α), x ∈ l.takeWhile p → p x = true := by
  intro l
  induction l with
  | nil => intro x h; simp [List.takeWhile] at h
  | cons a as ih =>
    intro x h
    by_cases hpa : p a = true
    · rw [List.takeWhile_cons_of_pos hpa] at h
      rcases List.mem_cons.1 h with h | h
      · rw [h]; exact hpa
      · exact ih x h
    · rw [List.takeWhile_cons_of_neg hpa] at h
      simp at h

/-- Helper: a string is its right trim followed by trailing whitespace. -/
theorem rtrim_decomp (y : Text) :
    ∃ w, y = rtrim y ++ w ∧ ∀ c ∈ w, pySpace c = true := by
  refine ⟨(y.reverse.takeWhile pySpace).reverse, ?_, ?_⟩
  · have h1 : y.reverse =
        y.reverse.takeWhile pySpace ++ y.reverse.dropWhile pySpace :=
      (List.takeWhile_append_dropWhile pySpace y.reverse).symm
    have h2 := congrArg List.reverse h1
    rw [List.reverse_reverse, List.reverse_append] at h2
    exact h2
  · intro c hc
    rw [List.mem_reverse] at hc
    exact mem_takeWhile_pred pySpace y.reverse c hc

/-- Helper: characters of the right trim come from the string. -/
theorem mem_of_mem_rtrim {m : Text} {c : Char} (h : c ∈ rtrim m) : c ∈ m := by
  unfold rtrim at h
  rw [List.mem_reverse] at h
  have h2 := mem_of_mem_dropWhile h
  rwa [List.mem_reverse] at h2

/-- Helper: the first character of a stripped string is non-whitespace. -/
theorem pyStrip_head_not_space {s : Text} {c : Char} {t : Text}
    (h : pyStrip s = c :: t) : pySpace c = false := by
  obtain ⟨w, hw, _⟩ := rtrim_decomp (ltrim s)
  have h2 : ltrim s = c :: (t ++ w) := by
    rw [show rtrim (ltrim s) = pyStrip s from rfl, h] at hw
    rw [hw]
    rfl
  exact head_dropWhile_neg pySpace s c (t ++ w) h2

/-- Helper: the first line produced by the split accumulator extends the
reversed accumulator. -/
theorem splitLinesAux_head_ext :
    ∀ (s cur : Text), ∃ w rest,
      splitLinesAux s cur = (cur.reverse ++ w) :: rest := by
  intro s
  induction s with
  | nil => intro cur; exact ⟨[], [], by simp [splitLinesAux]⟩
  | cons c t ih =>
    intro cur
    by_cases hc : c = '\n'
    · refine ⟨[], splitLinesAux t [], ?_⟩
      rw [splitLinesAux_cons, if_pos hc]
      simp
    · obtain ⟨w, rest, hw⟩ := ih (c :: cur)
      refine ⟨c :: w, rest, ?_⟩
      rw [splitLinesAux_cons, if_neg hc, hw]
      simp

/-- Helper: a scan whose first line is non-blank and non-marker and whose
remaining lines are marker-free keeps every line. -/
theorem scanAll_keep_all_lines (l0 : Text) (rest : List Text)
    (hbl : (pyStrip l0).isEmpty = false)
    (hq0 : matchQuoteStart (pyStrip l0) = false)
    (hm : ∀ l ∈ rest, matchQuoteStart (pyStrip l) = false ∧
      matchSig (pyStrip l) = false) :
    scanAll (l0 :: rest) = l0 :: rest := by
  have hoc : matchOnCommaWrote (pyStrip l0) = false := by
    by_contra hx
    rw [Bool.not_eq_false] at hx
    rw [matchOnCommaWrote_imp hx] at hq0
    simp at hq0
  have hsig0 : sigUpdate initScan (pyStrip l0) = initScan := by
    unfold sigUpdate
    rw [if_neg (by simp [initScan])]
  have hstep : scanStep initScan l0 = { initScan with kept := [l0] } := by
    unfold scanStep
    rw [if_neg (by simp [hq0]), hsig0, if_neg (by simp [hoc]),
      if_pos (by simp [initScan]), if_neg (by simp [initScan, hbl])]
    rfl
  unfold scanAll
  rw [List.foldl_cons, hstep]
  obtain ⟨k1, _, _⟩ :=
    foldl_scan_keep_all rest hm { initScan with kept := [l0] } rfl rfl (by simp)
  rw [k1]
  simp [initScan]

/-- Helper: a nonempty body equal to its own strip, none of whose lines
matches a quote pattern, a signature pattern (past the first line), or
strips to device boilerplate, is a fixed point of the extractor. -/
theorem extract_fixpoint (o d : Text) (h0 : o ≠ []) (h1 : pyStrip o = o)
    (h2 : ∀ l ∈ splitLines o, matchQuoteStart (pyStrip l) = false)
    (h3 : ∀ l ∈ (splitLines o).tail, matchSig (pyStrip l) = false)
    (h4 : ∀ l ∈ splitLines o, ∀ lit ∈ boilerLits, pyStrip l ≠ lit) :
    extract_your_content o d = o := by
  obtain ⟨c, t, rfl⟩ : ∃ c2 t2, o = c2 :: t2 := by
    cases o with
    | nil => exact absurd rfl h0
    | cons a b => exact ⟨a, b, rfl⟩
  have hcs : pySpace c = false := pyStrip_head_not_space h1
  have hcnl : c ≠ '\n' := by
    intro hc
    rw [hc] at hcs
    exact absurd hcs (by decide)
  obtain ⟨w, rest, hw⟩ := splitLinesAux_head_ext t [c]
  have hsl : splitLines (c :: t) = (c :: w) :: rest := by
    unfold splitLines
    rw [splitLinesAux_cons, if_neg hcnl, hw]
    rfl
  have hne0 := pyStrip_ne_nil (List.mem_cons_self c w) hcs
  have hbl0 : (pyStrip (c :: w)).isEmpty = false := by
    cases hx : pyStrip (c :: w) with
    | nil => exact absurd hx hne0
    | cons a b => rfl
  have hkeep : scanAll (splitLines (c :: t)) = splitLines (c :: t) := by
    rw [hsl]
    refine scanAll_keep_all_lines (c :: w) rest hbl0 ?_ ?_
    · exact h2 (c :: w) (by rw [hsl]; exact List.mem_cons_self _ _)
    · intro l hl
      refine ⟨h2 l ?_, h3 l ?_⟩
      · rw [hsl]; exact List.mem_cons_of_mem _ hl
      · rw [hsl]; exact hl
  unfold extract_your_content
  rw [if_neg (by simp), if_neg (by rw [hkeep, hsl]; simp), hkeep,
    postProcess_noop (splitLines (c :: t)) (splitLines_no_newline (c :: t)) h4,
    joinLines_splitLines]
  exact h1

/-- Helper: the extractor ignores its date argument (unused in the source
as well). -/
theorem extract_date_irrelevant (body d d2 : Text) :
    extract_your_content body d = extract_your_content body d2 := rfl

/-- C9: extract_your_content applied to its own output returns that output
unchanged, provided no line of the body strips to one of the four device
boilerplate literals; a line equal to such a literal is removed by the first
pass's end-anchored substitution but can leave an earlier copy exposed, which
the second pass then also removes, breaking idempotence in general. -/
theorem extract_idempotent (body d d2 : Text)
    (hb : ∀ l ∈ splitLines body, ∀ lit ∈ boilerLits, pyStrip l ≠ lit) :
    extract_your_content (extract_your_content body d) d2 =
      extract_your_content body d := by
  by_cases hbody : body = []
  · subst hbody
    rfl
  · cases hk : scanAll (splitLines body) with
    | nil =>
      have h5 : splitLines body ≠ [] := splitLinesAux_ne_nil body []
      have hfail : extract_your_content body d = body := by
        unfold extract_your_content
        rw [if_neg (by simp [List.isEmpty_iff, hbody]),
          if_pos (by
            rw [hk]
            cases hsl2 : splitLines body with
            | nil => exact absurd hsl2 h5
            | cons p ps => rfl)]
      rw [hfail, extract_date_irrelevant body d2 d]
      exact hfail
    | cons k0 ks =>
      have hkeptmem : ∀ x ∈ k0 :: ks, x ∈ splitLines body := by
        intro x hx
        exact scanAll_mem (splitLines body) x (by rw [hk]; exact hx)
      have hknl : ∀ x ∈ k0 :: ks, '\n' ∉ x :=
        fun x hx => splitLines_no_newline body x (hkeptmem x hx)
      have hknb : ∀ x ∈ k0 :: ks, ∀ lit ∈ boilerLits, pyStrip x ≠ lit :=
        fun x hx => hb x (hkeptmem x hx)
      obtain ⟨hqAll, hblF, hsigT⟩ := scanAll_inv (splitLines body)
      have hbl0 : (pyStrip k0).isEmpty = false := hblF k0 ks hk
      have hextr : extract_your_content body d =
          pyStrip (joinLines (k0 :: ks)) := by
        unfold extract_your_content
        rw [if_neg (by simp [List.isEmpty_iff, hbody]), hk, if_neg (by simp),
          postProcess_noop (k0 :: ks) hknl hknb]
      have hk0strip : pyStrip k0 ≠ [] := by
        intro hx
        rw [hx] at hbl0
        simp at hbl0
      have hltr : ltrim k0 ≠ [] := by
        intro hx
        apply hk0strip
        show rtrim (ltrim k0) = []
        rw [hx]
        rfl
      have hostr : pyStrip (joinLines (k0 :: ks)) =
          joinLines (rstripLines (ltrim k0 :: ks)) := by
        show rtrim (ltrim (joinLines (k0 :: ks))) = _
        rw [ltrim_join k0 ks hltr, rtrim_join]
      obtain ⟨c1, hc1mem, hc1⟩ : ∃ c1, c1 ∈ k0 ∧ pySpace c1 = false := by
        by_contra hall
        push_neg at hall
        apply hk0strip
        apply pyStrip_nil_of_all_space
        intro ch hch
        cases hcc : pySpace ch with
        | true => rfl
        | false => exact absurd hcc (hall ch hch)
      have hc1join : c1 ∈ joinLines (k0 :: ks) := by
        cases ks with
        | nil => exact hc1mem
        | cons m2 ms2 =>
          rw [joinLines_cons_cons]
          exact List.mem_append_left _ hc1mem
      have honz : pyStrip (joinLines (k0 :: ks)) ≠ [] :=
        pyStrip_ne_nil hc1join hc1
      have hms2ne : rstripLines (ltrim k0 :: ks) ≠ [] := by
        intro hx
        rw [hostr, hx] at honz
        exact honz rfl
      rcases rstripLines_shape (ltrim k0 :: ks) with hnil | ⟨P, m, w2, hdec, hres⟩
      · exact absurd hnil hms2ne
      · have hzin : ∀ y ∈ ltrim k0 :: ks,
            ∃ z ∈ k0 :: ks, pyStrip y = pyStrip z := by
          intro y hy
          rcases List.mem_cons.1 hy with hy | hy
          · exact ⟨k0, List.mem_cons_self _ _, by rw [hy]; exact pyStrip_ltrim k0⟩
          · exact ⟨y, List.mem_cons_of_mem _ hy, rfl⟩
        have hmmem : m ∈ ltrim k0 :: ks := by
          rw [hdec]
          exact List.mem_append_left _ (List.mem_append_right _ (by simp))
        have hmem2 : ∀ x ∈ P ++ [rtrim m],
            ∃ z ∈ k0 :: ks, pyStrip x = pyStrip z := by
          intro x hx
          rcases List.mem_append.1 hx with hx | hx
          · exact hzin x (by
              rw [hdec]
              exact List.mem_append_left _ (List.mem_append_left _ hx))
          · have hxm : x = rtrim m := by simpa using hx
            obtain ⟨z, hz, he⟩ := hzin m hmmem
            exact ⟨z, hz, by rw [hxm, pyStrip_rtrim]; exact he⟩
        have hbase : ∀ y ∈ ltrim k0 :: ks, '\n' ∉ y := by
          intro y hy
          rcases List.mem_cons.1 hy with hy | hy
          · rw [hy]
            intro hin
            exact hknl k0 (List.mem_cons_self _ _) (mem_of_mem_dropWhile hin)
          · exact hknl y (List.mem_cons_of_mem _ hy)
        have hnl2 : ∀ x ∈ P ++ [rtrim m], '\n' ∉ x := by
          intro x hx
          rcases List.mem_append.1 hx with hx | hx
          · exact hbase x (by
              rw [hdec]
              exact List.mem_append_left _ (List.mem_append_left _ hx))
          · have hxm : x = rtrim m := by simpa using hx
            rw [hxm]
            intro hin
            exact hbase m hmmem (mem_of_mem_rtrim hin)
        have hsplit2 : splitLines (joinLines (P ++ [rtrim m])) =
            P ++ [rtrim m] :=
          splitLines_joinLines (P ++ [rtrim m]) (by simp) hnl2
        have hostr2 : pyStrip (joinLines (k0 :: ks)) =
            joinLines (P ++ [rtrim m]) := by
          rw [hostr, hres]
        have h0f : joinLines (P ++ [rtrim m]) ≠ [] := by
          rw [← hostr2]
          exact honz
        have h1f : pyStrip (joinLines (P ++ [rtrim m])) =
            joinLines (P ++ [rtrim m]) := by
          rw [← hostr2]
          exact pyStrip_idem (joinLines (k0 :: ks))
        have h2f : ∀ l ∈ splitLines (joinLines (P ++ [rtrim m])),
            matchQuoteStart (pyStrip l) = false := by
          intro l hl
          rw [hsplit2] at hl
          obtain ⟨z, hz, he⟩ := hmem2 l hl
          rw [he]
          exact hqAll z (by rw [hk]; exact hz)
        have h3f : ∀ l ∈ (splitLines (joinLines (P ++ [rtrim m]))).tail,
            matchSig (pyStrip l) = false := by
          intro l hl
          rw [hsplit2] at hl
          cases hP : P with
          | nil =>
            rw [hP] at hl
            simp at hl
          | cons p0 P2 =>
            rw [hP] at hl
            have hl2 : l ∈ P2 ++ [rtrim m] := by simpa using hl
            rw [hP] at hdec
            simp only [List.cons_append] at hdec
            have hks : ks = P2 ++ [m] ++ w2 := (List.cons_eq_cons.1 hdec).2
            rcases List.mem_append.1 hl2 with hx | hx
            · exact hsigT l (by
                rw [hk]
                show l ∈ ks
                rw [hks]
                exact List.mem_append_left _ (List.mem_append_left _ hx))
            · have hxm : l = rtrim m := by simpa using hx
              rw [hxm, pyStrip_rtrim]
              exact hsigT m (by
                rw [hk]
                show m ∈ ks
                rw [hks]
                exact List.mem_append_left _ (List.mem_append_right _ (by simp)))
        have h4f : ∀ l ∈ splitLines (joinLines (P ++ [rtrim m])),
            ∀ lit ∈ boilerLits, pyStrip l ≠ lit := by
          intro l hl lit hlit
          rw [hsplit2] at hl
          obtain ⟨z, hz, he⟩ := hmem2 l hl
          rw [he]
          exact hknb z hz lit hlit
        have hfix := extract_fixpoint (joinLines (P ++ [rtrim m])) d2
          h0f h1f h2f h3f h4f
        rw [hextr, hostr2, hfix]

set_option maxRecDepth 10000 in
/-- Witness for C9 at a concrete two-line body free of boilerplate lines. -/
theorem extract_idempotent_witness :
    (∀ l ∈ splitLines "hello\nworld".data, ∀ lit ∈ boilerLits,
      pyStrip l ≠ lit) ∧
    extract_your_content (extract_your_content "hello\nworld".data []) [] =
      extract_your_content "hello\nworld".data [] :=
  ⟨by decide, extract_idempotent "hello\nworld".data [] [] (by decide)⟩

set_option maxRecDepth 10000 in
/-- Counterexample for C9 as stated: a body ending in two copies of the
Outlook boilerplate line is not a fixed point of a second extraction — the
first pass removes only the final copy, the second pass removes the one it
exposed. -/
theorem extract_idempotent_cex :
    extract_your_content
        (extract_your_content
          "a\nGet Outlook for iOS\nGet Outlook for iOS".data []) [] ≠
      extract_your_content
        "a\nGet Outlook for iOS\nGet Outlook for iOS".data [] := by
  decide



/-- Helper: the batch buffers start empty. -/
theorem concatEntries_nil : concatEntries [] = [] := rfl

/-- Helper: the id buffer starts empty. -/
theorem concatIds_nil : concatIds [] = [] := rfl

/-- Helper: appending one record to the content buffer. -/
theorem concatEntries_append_singleton (p : List (Text × GmailDetail))
    (mid : Text) (d : GmailDetail) :
    concatEntries (p ++ [(mid, d)]) = concatEntries p ++ emailEntry mid d := by
  simp [concatEntries]

/-- Helper: appending one id to the id buffer. -/
theorem concatIds_append_singleton (p : List (Text × GmailDetail))
    (mid : Text) (d : GmailDetail) :
    concatIds (p ++ [(mid, d)]) = concatIds p ++ mid ++ ['\n'] := by
  simp [concatIds]

/-- Helper: a serialized record entry is never empty. -/
theorem emailEntry_ne_nil (mid : Text) (d : GmailDetail) :
    emailEntry mid d ≠ [] := by
  simp [emailEntry]

/-- Helper: one unfolding step of the gmail_history per-message loop. -/
theorem gmailPageLoop_cons (limit batchSize : Nat) (m : GmailMessage)
    (rest : List GmailMessage) (i : Nat) (st : FetchState)
    (batch newIds : Text) :
    gmailPageLoop limit batchSize (m :: rest) i st batch newIds =
      if st.processed.contains m.msgId then
        gmailPageLoop limit batchSize rest (i + 1) st batch newIds
      else if limit ≤ st.totalFetched then
        ({ st with limitReached := true }, [])
      else
        match m.detail with
        | none =>
          gmailPageLoop limit batchSize rest (i + 1)
            { st with totalFetched := st.totalFetched + 1 } batch newIds
        | some d =>
          if (i + 1) % 20 = 0 || i = batchSize - 1 then
            if (batch ++ emailEntry m.msgId d).isEmpty then
              gmailPageLoop limit batchSize rest (i + 1)
                { processed := m.msgId :: st.processed,
                  totalFetched := st.totalFetched + 1,
                  actualProcessed := st.actualProcessed + 1,
                  limitReached := st.limitReached }
                (batch ++ emailEntry m.msgId d) (newIds ++ m.msgId ++ ['\n'])
            else
              ((gmailPageLoop limit batchSize rest (i + 1)
                  { processed := m.msgId :: st.processed,
                    totalFetched := st.totalFetched + 1,
                    actualProcessed := st.actualProcessed + 1,
                    limitReached := st.limitReached } [] []).1,
                SEvent.corpus (batch ++ emailEntry m.msgId d) ::
                  SEvent.progress (newIds ++ m.msgId ++ ['\n']) ::
                  (gmailPageLoop limit batchSize rest (i + 1)
                    { processed := m.msgId :: st.processed,
                      totalFetched := st.totalFetched + 1,
                      actualProcessed := st.actualProcessed + 1,
                      limitReached := st.limitReached } [] []).2)
          else
            gmailPageLoop limit batchSize rest (i + 1)
              { processed := m.msgId :: st.processed,
                totalFetched := st.totalFetched + 1,
                actualProcessed := st.actualProcessed + 1,
                limitReached := st.limitReached }
              (batch ++ emailEntry m.msgId d) (newIds ++ m.msgId ++ ['\n']) :=
  rfl

/-- Helper: one unfolding step of the gmail_history pagination loop. -/
theorem gmailFetchRun_cons (limit : Nat) (page : List GmailMessage)
    (restPages : List (List GmailMessage)) (st : FetchState) :
    gmailFetchRun limit (page :: restPages) st =
      if st.limitReached then []
      else if page.isEmpty then []
      else
        (gmailPageLoop limit page.length page 0 st [] []).2 ++
          gmailFetchRun limit restPages
            (gmailPageLoop limit page.length page 0 st [] []).1 := rfl

/-- Helper: the events emitted over one page are a sequence of flushes, each
appending a nonempty batch's content and then the ids of that same batch. -/
theorem gmailPageLoop_flush_shape (limit batchSize : Nat) :
    ∀ (msgs : List GmailMessage) (i : Nat) (st : FetchState)
      (pending : List (Text × GmailDetail)),
      ∃ batches : List (List (Text × GmailDetail)),
        (∀ b ∈ batches, b ≠ []) ∧
        (gmailPageLoop limit batchSize msgs i st
            (concatEntries pending) (concatIds pending)).2 =
          (batches.map flushEvents).flatten := by
  intro msgs
  induction msgs with
  | nil => intro i st pending; exact ⟨[], by simp, rfl⟩
  | cons m rest ih =>
    intro i st pending
    rw [gmailPageLoop_cons]
    by_cases hproc : st.processed.contains m.msgId = true
    · rw [if_pos hproc]
      exact ih (i + 1) st pending
    · rw [if_neg hproc]
      by_cases hlim : limit ≤ st.totalFetched
      · rw [if_pos hlim]
        exact ⟨[], by simp, rfl⟩
      · rw [if_neg hlim]
        cases hd : m.detail with
        | none => exact ih (i + 1) _ pending
        | some d =>
          simp only []
          have hb2 : concatEntries pending ++ emailEntry m.msgId d =
              concatEntries (pending ++ [(m.msgId, d)]) :=
            (concatEntries_append_singleton pending m.msgId d).symm
          have hi2 : concatIds pending ++ m.msgId ++ ['\n'] =
              concatIds (pending ++ [(m.msgId, d)]) :=
            (concatIds_append_singleton pending m.msgId d).symm
          by_cases hf : ((i + 1) % 20 = 0 || i = batchSize - 1) = true
          · rw [if_pos hf, hb2, hi2]
            have hne : concatEntries (pending ++ [(m.msgId, d)]) ≠ [] := by
              rw [concatEntries_append_singleton]
              simp [emailEntry_ne_nil]
            rw [if_neg (by simp [List.isEmpty_iff, hne])]
            obtain ⟨bs, hbs1, hbs2⟩ := ih (i + 1)
              { processed := m.msgId :: st.processed,
                totalFetched := st.totalFetched + 1,
                actualProcessed := st.actualProcessed + 1,
                limitReached := st.limitReached } []
            rw [concatEntries_nil, concatIds_nil] at hbs2
            refine ⟨(pending ++ [(m.msgId, d)]) :: bs, ?_, ?_⟩
            · intro b hb
              rcases List.mem_cons.1 hb with hb | hb
              · rw [hb]; simp
              · exact hbs1 b hb
            · simp only [List.map_cons, List.flatten_cons, flushEvents,
                List.cons_append, List.nil_append]
              rw [hbs2]
          · rw [if_neg hf, hb2, hi2]
            exact ih (i + 1) _ (pending ++ [(m.msgId, d)])

/-- Helper: the events of a whole gmail_history run are a sequence of
flushes of nonempty batches. -/
theorem gmailFetchRun_flush_shape (limit : Nat) :
    ∀ (pages : List (List GmailMessage)) (st : FetchState),
      ∃ batches : List (List (Text × GmailDetail)),
        (∀ b ∈ batches, b ≠ []) ∧
        gmailFetchRun limit pages st = (batches.map flushEvents).flatten := by
  intro pages
  induction pages with
  | nil => intro st; exact ⟨[], by simp, rfl⟩
  | cons page restPages ih =>
    intro st
    rw [gmailFetchRun_cons]
    by_cases h1 : st.limitReached = true
    · rw [if_pos h1]
      exact ⟨[], by simp, rfl⟩
    · rw [if_neg h1]
      by_cases h2 : page.isEmpty = true
      · rw [if_pos h2]
        exact ⟨[], by simp, rfl⟩
      · rw [if_neg h2]
        obtain ⟨bs1, ha1, ha2⟩ :=
          gmailPageLoop_flush_shape limit page.length page 0 st []
        rw [concatEntries_nil, concatIds_nil] at ha2
        obtain ⟨bs2, hc1, hc2⟩ :=
          ih (gmailPageLoop limit page.length page 0 st [] []).1
        refine ⟨bs1 ++ bs2, ?_, ?_⟩
        · intro b hb
          rcases List.mem_append.1 hb with hb | hb
          · exact ha1 b hb
          · exact hc1 b hb
        · rw [ha2, hc2, List.map_append, List.flatten_append]

/-- C5: every storage trace of gmail_history.fetch_emails is a sequence of
flushes, each appending a nonempty batch's serialized content to the corpus
blob and then, together with it, the ids of exactly that batch to the
progress blob — so there an id is never persisted without its record
content.  The companion async loop in app.py does not share this shape: it
appends per record, and its empty-extraction branch persists an id with no
corpus append at all. -/
theorem fetch_flush_together (limit : Nat) (pages : List (List GmailMessage))
    (st : FetchState) :
    ∃ batches : List (List (Text × GmailDetail)),
      (∀ b ∈ batches, b ≠ []) ∧
      gmailFetchRun limit pages st = (batches.map flushEvents).flatten :=
  gmailFetchRun_flush_shape limit pages st

/-- Counterexample for C5 over the app.py loop: a message whose body extracts
to empty is marked processed in the progress blob with no corpus append, so
the run's trace is a lone progress event and matches no sequence of
content-then-ids flushes. -/
theorem fetch_flush_together_cex :
    ¬ ∃ batches : List (List (Text × GmailDetail)),
      appFetchRun 10 [[emptyBodyMsg]] (initFetch []) =
        (batches.map flushEvents).flatten := by
  intro hex
  obtain ⟨bs, hbs⟩ := hex
  have htr : appFetchRun 10 [[emptyBodyMsg]] (initFetch []) =
      [SEvent.progress ("m1".data ++ ['\n'])] := by decide
  rw [htr] at hbs
  cases bs with
  | nil => simp at hbs
  | cons b bs2 => simp [flushEvents] at hbs


end MailSense
